import Mathlib

/-!
# ShuntingYard: tokenizer, infix-to-postfix converter and postfix evaluator

A shallow embedding of `src/main.cpp` (`tokenize`, `shuntingYard`, `calculate`)
together with theorems about it.

Modelling conventions.

* A `std::string` is a `List Char`, one `Char` per C++ `char`.
* The `double` arithmetic, `pow` and `std::stod` come from the C++ standard
  library, not from this program.  They are taken as a parameter `DoubleOps V`,
  so every general theorem holds for whatever these library functions compute.
  `ratOps` is one concrete instance over `ℚ`, used to evaluate the program on
  short decimal inputs.
* The 8-bit counters of `tokenize` are natural numbers reduced modulo `256`
  after every increment.
* An uncaught C++ exception, a loop that never ends and an access to the top of
  an empty `std::stack` are explicit failure results.
-/

namespace ShuntingYard

/-! ## Data model -/

/-- The enumeration `TokenType` of `main.cpp`. -/
inductive TokenType where
  | Initial
  | Number
  | Operator
  | LBracket
  | RBracket
  deriving DecidableEq, Repr

/-- The structure `Token` of `main.cpp`; `precedence` is a `uint8_t` and only ever
holds `0`, `1` or `2`. -/
structure Token (V : Type) where
  type : TokenType
  precedence : Nat
  characters : List Char
  value : V
  deriving DecidableEq, Repr

/-- The library operations on `double` used by the program: the literal `0.0`, the four
arithmetic operators, `pow` from `<cmath>` and `std::stod`, which returns `none` where the
C++ function throws (`std::invalid_argument`, `std::out_of_range`). -/
structure DoubleOps (V : Type) where
  zero : V
  add : V → V → V
  sub : V → V → V
  mul : V → V → V
  div : V → V → V
  pow : V → V → V
  stod : List Char → Option V

/-- A default-constructed `Token`: `Initial`, precedence `0`, empty text, value `0.0`. -/
def Token.default {V : Type} (ops : DoubleOps V) : Token V :=
  { type := TokenType.Initial, precedence := 0, characters := [], value := ops.zero }

/-! ## tokenize -/

/-- The ways in which `tokenize` does not return a token sequence. -/
inductive TokenizeError where
  /-- The call `std::stod` threw; the exception is not caught anywhere. -/
  | stodThrows
  /-- The loop is still running after 256 iterations; it is then never left normally. -/
  | diverges
  deriving DecidableEq, Repr

/-- The classification chain of `tokenize` (lines 28-41) for a character other than a space:
the new `state`, or `none` for the final `else` branch (unknown symbol, `continue`). -/
def classify (chr : Char) : Option TokenType :=
  if ('0' ≤ chr ∧ chr ≤ '9') ∨ chr = '.' then some TokenType.Number
  else if chr = '+' ∨ chr = '-' ∨ chr = '*' ∨ chr = '/' ∨ chr = '^' then some TokenType.Operator
  else if chr = '(' then some TokenType.LBracket
  else if chr = ')' then some TokenType.RBracket
  else if chr = '\x00' then some TokenType.Initial
  else none

/-- The call `line.substr(pos, len)` for `pos ≤ line.size()`. -/
def substr (line : List Char) (pos len : Nat) : List Char :=
  (line.drop pos).take len

/-- The body of `if (prevState != state && tokenLength)` up to `tokens.push_back` (lines 43-58):
the token built from the run `characters` that was accumulated in state `prevState`.
The assignment `token.type = prevState` is overwritten by `token.type = Number`. -/
def makeToken {V : Type} (ops : DoubleOps V) (prevState : TokenType) (characters : List Char) :
    Except TokenizeError (Token V) :=
  let token : Token V := { Token.default ops with type := TokenType.Number, characters := characters }
  if prevState = TokenType.Operator then
    if characters = ['+'] ∨ characters = ['-'] then
      Except.ok { token with precedence := 0 }
    else if characters = ['*'] ∨ characters = ['/'] then
      Except.ok { token with precedence := 1 }
    else if characters = ['^'] then
      Except.ok { token with precedence := 2 }
    else
      Except.ok token
  else if prevState = TokenType.Number then
    match ops.stod characters with
    | some v => Except.ok { token with value := v }
    | none => Except.error TokenizeError.stodThrows
  else
    Except.ok token

/-- The variables of `tokenize` that live across loop iterations.  The variable `state` is
assigned in every iteration before it is read, so it is local to `tokenizeStep`. -/
structure TokenizeState (V : Type) where
  i : Nat
  tokenStart : Nat
  tokenLength : Nat
  prevState : TokenType
  tokens : List (Token V)

/-- The assignment `chr = i == line.size() ? '\0' : line[i]` (line 26). -/
def charAt (line : List Char) (i : Nat) : Char :=
  if i = line.length then '\x00' else line.getD i '\x00'

/-- One execution of the loop body of `tokenize` (lines 26-63) at counter `st.i`, without the
increment `++i`.  The two `continue` statements leave the state as it is; the diagnostic
written to `std::cerr` for an unknown symbol is not part of the state. -/
def tokenizeStep {V : Type} (ops : DoubleOps V) (line : List Char) (st : TokenizeState V) :
    Except TokenizeError (TokenizeState V) :=
  let chr : Char := charAt line st.i
  if chr = ' ' then Except.ok st
  else
    match classify chr with
    | none => Except.ok st
    | some state =>
      if st.prevState ≠ state ∧ st.tokenLength ≠ 0 then
        match makeToken ops st.prevState (substr line st.tokenStart st.tokenLength) with
        | Except.error e => Except.error e
        | Except.ok token =>
          Except.ok { st with
            tokens := st.tokens ++ [token]
            tokenStart := st.i
            tokenLength := (0 + 1) % 256
            prevState := state }
      else
        Except.ok { st with
          tokenLength := (st.tokenLength + 1) % 256
          prevState := state }

/-- The `for` loop of `tokenize` run for at most `fuel` iterations: while `i <= line.size()`
execute the body and then `++i` on the 8-bit counter. -/
def tokenizeLoop {V : Type} (ops : DoubleOps V) (line : List Char) :
    Nat → TokenizeState V → Except TokenizeError (List (Token V))
  | 0, _ => Except.error TokenizeError.diverges
  | fuel + 1, st =>
    if st.i ≤ line.length then
      match tokenizeStep ops line st with
      | Except.error e => Except.error e
      | Except.ok st' => tokenizeLoop ops line fuel { st' with i := (st.i + 1) % 256 }
    else
      Except.ok st.tokens

/-- The function `tokenize` with an explicit value for the variable `prevState`, which the
C++ declaration leaves uninitialised.  The loop condition depends on the 8-bit counter only,
which returns to `0` after `256` increments: on a line of at most 254 characters the loop is
left within 256 iterations, on a longer line its condition never fails. -/
def tokenizeFrom {V : Type} (ops : DoubleOps V) (prev0 : TokenType) (line : List Char) :
    Except TokenizeError (List (Token V)) :=
  tokenizeLoop ops line 256
    { i := 0, tokenStart := 0, tokenLength := 0, prevState := prev0, tokens := [] }

/-- The function `tokenize` of `main.cpp`. -/
def tokenize {V : Type} (ops : DoubleOps V) (line : List Char) :
    Except TokenizeError (List (Token V)) :=
  tokenizeFrom ops TokenType.Initial line

/-- The `for` loop of `tokenize` together with a record of the values of the counter `i` at
which the loop body was executed, in order. -/
def tokenizeTrace {V : Type} (ops : DoubleOps V) (line : List Char) :
    Nat → TokenizeState V → Except TokenizeError (List Nat × List (Token V))
  | 0, _ => Except.error TokenizeError.diverges
  | fuel + 1, st =>
    if st.i ≤ line.length then
      match tokenizeStep ops line st with
      | Except.error e => Except.error e
      | Except.ok st' =>
        match tokenizeTrace ops line fuel { st' with i := (st.i + 1) % 256 } with
        | Except.error e => Except.error e
        | Except.ok r => Except.ok (st.i :: r.1, r.2)
    else
      Except.ok ([], st.tokens)

/-- The state in which `tokenize` enters its loop. -/
def tokenizeInit (V : Type) : TokenizeState V :=
  { i := 0, tokenStart := 0, tokenLength := 0, prevState := TokenType.Initial, tokens := [] }

/-- The state of `tokenize` after at most `n` executions of the loop body, started in `st`:
the loop stops earlier when its condition `i <= line.size()` fails. -/
def tokenizeAfter {V : Type} (ops : DoubleOps V) (line : List Char) :
    Nat → TokenizeState V → Except TokenizeError (TokenizeState V)
  | 0, st => Except.ok st
  | n + 1, st =>
    if st.i ≤ line.length then
      match tokenizeStep ops line st with
      | Except.error e => Except.error e
      | Except.ok st' => tokenizeAfter ops line n { st' with i := (st.i + 1) % 256 }
    else
      Except.ok st

/-- Library operations whose `std::stod` never throws and returns its own argument as the
value: run with them, `tokenize` records in the value of each token the text that it hands
to `std::stod`, and `none` in the tokens for which it does not call `std::stod`. -/
def recordOps : DoubleOps (Option (List Char)) :=
  { zero := none
    add := fun _ _ => none
    sub := fun _ _ => none
    mul := fun _ _ => none
    div := fun _ _ => none
    pow := fun _ _ => none
    stod := fun cs => some (some cs) }

/-- The arguments of the calls of `std::stod` that `tokenize` makes on a line, in order,
provided no call throws. -/
def stodTexts (line : List Char) : List (List Char) :=
  match tokenize recordOps line with
  | Except.ok ts => ts.filterMap Token.value
  | Except.error _ => []

/-- The token that `tokenize` builds with the operations `ops` where the recording run built
`r`: the recorded call of `std::stod`, if any, is made with `ops`. -/
def replayToken {V : Type} (ops : DoubleOps V) (r : Token (Option (List Char))) :
    Except TokenizeError (Token V) :=
  match r.value with
  | none => Except.ok
      { type := r.type, precedence := r.precedence, characters := r.characters,
        value := ops.zero }
  | some cs =>
    match ops.stod cs with
    | some v => Except.ok
        { type := r.type, precedence := r.precedence, characters := r.characters, value := v }
    | none => Except.error TokenizeError.stodThrows

/-- The tokens of a recording run with the calls of `std::stod` made by `ops`, from left to
right; the first call that throws ends it. -/
def replay {V : Type} (ops : DoubleOps V) :
    List (Token (Option (List Char))) → Except TokenizeError (List (Token V))
  | [] => Except.ok []
  | r :: rs =>
    match replayToken ops r with
    | Except.error e => Except.error e
    | Except.ok t =>
      match replay ops rs with
      | Except.error e => Except.error e
      | Except.ok ts => Except.ok (t :: ts)

/-- The relation between the loop state of `tokenize` with the operations `ops` and the loop
state of the recording run at the same iteration. -/
def ReplayRel {V : Type} (ops : DoubleOps V) (st : TokenizeState V)
    (st' : TokenizeState (Option (List Char))) : Prop :=
  st.i = st'.i ∧ st.tokenStart = st'.tokenStart ∧ st.tokenLength = st'.tokenLength ∧
    st.prevState = st'.prevState ∧ replay ops st'.tokens = Except.ok st.tokens

/-! ## shuntingYard -/

/-- The `while` loop of the `Operator` branch (lines 75-78): pop into the queue while the
stack is not empty, its top is not a left bracket and has a strictly greater precedence.
The stack is a list whose head is the top. -/
def popOperators {V : Type} (token : Token V) :
    List (Token V) → List (Token V) → List (Token V) × List (Token V)
  | queue, [] => (queue, [])
  | queue, top :: rest =>
    if top.type ≠ TokenType.LBracket ∧ top.precedence > token.precedence then
      popOperators token (queue ++ [top]) rest
    else
      (queue, top :: rest)

/-- The `while` loop of the `RBracket` branch (lines 83-86): pop into the queue until the
stack is empty or its top is a left bracket. -/
def popUntilLBracket {V : Type} :
    List (Token V) → List (Token V) → List (Token V) × List (Token V)
  | queue, [] => (queue, [])
  | queue, top :: rest =>
    if top.type ≠ TokenType.LBracket then
      popUntilLBracket (queue ++ [top]) rest
    else
      (queue, top :: rest)

/-- The `for` loop of `shuntingYard` (lines 71-91) on the remaining tokens, the output queue
and the operator stack. -/
def shuntingYardLoop {V : Type} :
    List (Token V) → List (Token V) → List (Token V) → List (Token V) × List (Token V)
  | [], queue, stack => (queue, stack)
  | token :: rest, queue, stack =>
    if token.type = TokenType.Number then
      shuntingYardLoop rest (queue ++ [token]) stack
    else if token.type = TokenType.Operator then
      let r := popOperators token queue stack
      shuntingYardLoop rest r.1 (token :: r.2)
    else if token.type = TokenType.LBracket then
      shuntingYardLoop rest queue (token :: stack)
    else if token.type = TokenType.RBracket then
      let r := popUntilLBracket queue stack
      shuntingYardLoop rest r.1 r.2.tail
    else
      shuntingYardLoop rest queue stack

/-- The function `shuntingYard` of `main.cpp`: the `for` loop, then the final `while` loop
(lines 92-95), which moves the stack to the queue from the top down. -/
def shuntingYard {V : Type} (tokens : List (Token V)) : List (Token V) :=
  let r := shuntingYardLoop tokens [] []
  r.1 ++ r.2

/-! ## calculate -/

/-- The arithmetic of the `Operator` branch of `calculate` (lines 111-122). -/
def applyOperator {V : Type} (ops : DoubleOps V) (characters : List Char) (left right : V) : V :=
  if characters = ['+'] then ops.add left right
  else if characters = ['-'] then ops.sub left right
  else if characters = ['*'] then ops.mul left right
  else if characters = ['/'] then ops.div left right
  else if characters = ['^'] then ops.pow left right
  else ops.zero

/-- The `while` loop of `calculate` (lines 101-127) on the remaining tokens and the stack;
`none` when `stack.top()` is evaluated on an empty stack, which is undefined behaviour. -/
def calculateLoop {V : Type} (ops : DoubleOps V) :
    List (Token V) → List (Token V) → Option (List (Token V))
  | [], stack => some stack
  | token :: rest, stack =>
    if token.type = TokenType.Number then
      calculateLoop ops rest (token :: stack)
    else if token.type = TokenType.Operator then
      match stack with
      | right :: left :: stack' =>
        calculateLoop ops rest
          ({ Token.default ops with
              value := applyOperator ops token.characters left.value right.value } :: stack')
      | _ => none
    else
      calculateLoop ops rest stack

/-- The function `calculate` of `main.cpp`: the value of the top of the stack after the loop;
`none` when the program reads the top of an empty stack. -/
def calculate {V : Type} (ops : DoubleOps V) (tokens : List (Token V)) : Option V :=
  match calculateLoop ops tokens [] with
  | some (top :: _) => some top.value
  | _ => none

/-! ## The program with checked stack accesses -/

/-- The two ways in which the instrumented `shuntingYardChecked` stops without a result. -/
inductive StackFault where
  /-- The call `top()` or `pop()` was made on an empty `std::stack`. -/
  | emptyStack
  /-- A `while` loop used up its iteration budget. -/
  | outOfFuel
  deriving DecidableEq, Repr

/-- The call `stack.top()`, a fault on the empty stack. -/
def stackTop {α : Type} : List α → Except StackFault α
  | [] => Except.error StackFault.emptyStack
  | top :: _ => Except.ok top

/-- The call `stack.pop()`, a fault on the empty stack. -/
def stackPop {α : Type} : List α → Except StackFault (List α)
  | [] => Except.error StackFault.emptyStack
  | _ :: rest => Except.ok rest

/-- The `while` loop of lines 75-78 with every `stack.top()` and `stack.pop()` checked; the
condition is evaluated left to right and stops at its first false conjunct, as `&&` does. -/
def popOperatorsChecked {V : Type} (token : Token V) :
    Nat → List (Token V) → List (Token V) → Except StackFault (List (Token V) × List (Token V))
  | 0, _, _ => Except.error StackFault.outOfFuel
  | fuel + 1, queue, stack =>
    if stack.isEmpty then Except.ok (queue, stack)
    else do
      let top1 ← stackTop stack
      if top1.type = TokenType.LBracket then Except.ok (queue, stack)
      else do
        let top2 ← stackTop stack
        if ¬ top2.precedence > token.precedence then Except.ok (queue, stack)
        else do
          let top3 ← stackTop stack
          let stack' ← stackPop stack
          popOperatorsChecked token fuel (queue ++ [top3]) stack'

/-- The `while` loop of lines 83-86 with every `stack.top()` and `stack.pop()` checked. -/
def popUntilLBracketChecked {V : Type} :
    Nat → List (Token V) → List (Token V) → Except StackFault (List (Token V) × List (Token V))
  | 0, _, _ => Except.error StackFault.outOfFuel
  | fuel + 1, queue, stack =>
    if stack.isEmpty then Except.ok (queue, stack)
    else do
      let top1 ← stackTop stack
      if top1.type = TokenType.LBracket then Except.ok (queue, stack)
      else do
        let top2 ← stackTop stack
        let stack' ← stackPop stack
        popUntilLBracketChecked fuel (queue ++ [top2]) stack'

/-- The final `while` loop of lines 92-95 with `stack.top()` and `stack.pop()` checked. -/
def drainChecked {V : Type} :
    Nat → List (Token V) → List (Token V) → Except StackFault (List (Token V))
  | 0, _, _ => Except.error StackFault.outOfFuel
  | fuel + 1, queue, stack =>
    if stack.isEmpty then Except.ok queue
    else do
      let top ← stackTop stack
      let stack' ← stackPop stack
      drainChecked fuel (queue ++ [top]) stack'

/-- The `for` loop of `shuntingYard` with checked stack accesses.  Every `while` loop pops one
element per iteration, so it is given one iteration more than the stack has elements. -/
def shuntingYardLoopChecked {V : Type} :
    List (Token V) → List (Token V) → List (Token V) →
      Except StackFault (List (Token V) × List (Token V))
  | [], queue, stack => Except.ok (queue, stack)
  | token :: rest, queue, stack =>
    if token.type = TokenType.Number then
      shuntingYardLoopChecked rest (queue ++ [token]) stack
    else if token.type = TokenType.Operator then do
      let r ← popOperatorsChecked token (stack.length + 1) queue stack
      shuntingYardLoopChecked rest r.1 (token :: r.2)
    else if token.type = TokenType.LBracket then
      shuntingYardLoopChecked rest queue (token :: stack)
    else if token.type = TokenType.RBracket then do
      let r ← popUntilLBracketChecked (stack.length + 1) queue stack
      if r.2.isEmpty then shuntingYardLoopChecked rest r.1 r.2
      else do
        let stack' ← stackPop r.2
        shuntingYardLoopChecked rest r.1 stack'
    else
      shuntingYardLoopChecked rest queue stack

/-- The function `shuntingYard` with checked stack accesses. -/
def shuntingYardChecked {V : Type} (tokens : List (Token V)) :
    Except StackFault (List (Token V)) := do
  let r ← shuntingYardLoopChecked tokens [] []
  drainChecked (r.2.length + 1) r.1 r.2

/-! ## Vocabulary of the specification -/

/-- A character that `tokenize` puts into a run of a token class: a digit, `.`, one of
`+ - * / ^`, `(` or `)`.  Spaces, unknown symbols and the terminator are not significant. -/
def Significant (c : Char) : Prop :=
  classify c ≠ none ∧ classify c ≠ some TokenType.Initial

instance (c : Char) : Decidable (Significant c) := by
  unfold Significant
  infer_instance

/-- The significant characters of a line, in order. -/
def significantChars (line : List Char) : List Char :=
  line.filter (fun c => decide (Significant c))

/-- The maximal runs of neighbouring characters of one character class. -/
def classRuns (line : List Char) : List (List Char) :=
  line.splitBy (fun a b => classify a == classify b)

/-- The numeric runs of a line: its maximal runs of neighbouring digits and `.`. -/
def numericRuns (line : List Char) : List (List Char) :=
  (classRuns line).filter (fun run => run.head?.bind classify = some TokenType.Number)

/-- The precedence table of the specification for a token whose text is one operator
character: `+`/`-` have rank 0, `*`/`/` rank 1 and `^` rank 2. -/
def PrecedenceOfText {V : Type} (t : Token V) : Prop :=
  ((t.characters = ['+'] ∨ t.characters = ['-']) → t.precedence = 0) ∧
  ((t.characters = ['*'] ∨ t.characters = ['/']) → t.precedence = 1) ∧
  (t.characters = ['^'] → t.precedence = 2)

/-- The subsequence of the tokens of kind `Number`. -/
def numberTokens {V : Type} (ts : List (Token V)) : List (Token V) :=
  ts.filter (fun t => t.type = TokenType.Number)

/-- The height of the value stack after a sequence of Number and Operator tokens is read in
postfix order from height `depth`; `none` when an operator finds fewer than two values. -/
def postfixDepth {V : Type} : List (Token V) → Nat → Option Nat
  | [], depth => some depth
  | t :: rest, depth =>
    if t.type = TokenType.Number then postfixDepth rest (depth + 1)
    else if 2 ≤ depth then postfixDepth rest (depth - 1)
    else none

/-- A bracket-free sequence of Number and Operator tokens in valid postfix order: every
operator finds its two operands and exactly one value is left at the end. -/
def ValidPostfix {V : Type} (p : List (Token V)) : Prop :=
  (∀ t ∈ p, t.type = TokenType.Number ∨ t.type = TokenType.Operator) ∧
  postfixDepth p 0 = some 1

/-- The tokens that `calculate` acts on: those of kind `Number` or `Operator`. -/
def evaluatedTokens {V : Type} (ts : List (Token V)) : List (Token V) :=
  ts.filter (fun t => t.type = TokenType.Number ∨ t.type = TokenType.Operator)

/-- The height of the value stack of `calculate` after a token sequence is read from height
`depth`: a Number token adds one value, an Operator token replaces two values by one, any
other token leaves the stack alone; `none` when an Operator token is reached with fewer than
two values on the stack. -/
def stackDepth {V : Type} : List (Token V) → Nat → Option Nat
  | [], depth => some depth
  | t :: rest, depth =>
    if t.type = TokenType.Number then stackDepth rest (depth + 1)
    else if t.type = TokenType.Operator then
      if 2 ≤ depth then stackDepth rest (depth - 1) else none
    else stackDepth rest depth

/-- The value stack of the specification: the tokens are read from left to right, a Number
token pushes its value, an Operator token pops `right`, then `left`, and pushes
`left op right`, any other token is skipped; `none` when an Operator token finds fewer than
two values.  The head of the list is the top of the stack. -/
def valueStack {V : Type} (ops : DoubleOps V) : List (Token V) → List V → Option (List V)
  | [], values => some values
  | t :: rest, values =>
    if t.type = TokenType.Number then valueStack ops rest (t.value :: values)
    else if t.type = TokenType.Operator then
      match values with
      | right :: left :: values' =>
        valueStack ops rest (applyOperator ops t.characters left right :: values')
      | _ => none
    else valueStack ops rest values

/-- The subsequence of the tokens of kind `Operator`. -/
def operatorTokens {V : Type} (ts : List (Token V)) : List (Token V) :=
  ts.filter (fun t => t.type = TokenType.Operator)

/-- The number of tokens of kind `k` in a token sequence. -/
def countType {V : Type} (k : TokenType) (ts : List (Token V)) : Nat :=
  ts.countP (fun t => t.type = k)

/-- Balanced brackets: no prefix of the sequence has more right than left brackets, and the
sequence has as many right as left brackets. -/
def Balanced {V : Type} (ts : List (Token V)) : Prop :=
  (∀ n, n ≤ ts.length →
    countType TokenType.RBracket (ts.take n) ≤ countType TokenType.LBracket (ts.take n)) ∧
  countType TokenType.RBracket ts = countType TokenType.LBracket ts

/-! ## Loop invariants of `tokenize` -/

/-- The loop invariant behind the precedence of the emitted tokens: the window
`[tokenStart, tokenStart + tokenLength)` lies before the counter, an empty window is at
position `0` with only skipped characters before the counter, and a non-empty window starts
at a character of the class of the run or at a skipped character. -/
def PrecedenceInv {V : Type} (line : List Char) (st : TokenizeState V) : Prop :=
  (∀ t ∈ st.tokens, PrecedenceOfText t) ∧
  (st.i ≤ line.length →
    st.tokenStart + st.tokenLength ≤ st.i ∧
    (st.tokenLength = 0 → st.tokenStart = 0 ∧ ∀ j, j < st.i → classify (charAt line j) = none) ∧
    (st.tokenLength ≠ 0 →
      classify (charAt line st.tokenStart) = some st.prevState ∨
      classify (charAt line st.tokenStart) = none))

/-- The loop invariant that relates `tokenize` on a line of significant characters to the
left-to-right computation of `classRuns`: the window is the run that is being accumulated,
it ends right before the counter, and the texts of the emitted tokens are the runs that were
completed so far. -/
def RunsInv {V : Type} (line : List Char) (st : TokenizeState V) : Prop :=
  (st.i = 0 → st.tokenStart = 0 ∧ st.tokenLength = 0 ∧ st.tokens = []) ∧
  (0 < st.i → st.i ≤ line.length → ∃ ag g,
    substr line st.tokenStart st.tokenLength = (ag :: g).reverse ∧
    st.tokenStart + st.tokenLength = st.i ∧ st.tokenLength ≠ 0 ∧
    classify ag = some st.prevState ∧ st.prevState ≠ TokenType.Initial ∧
    classRuns line = List.splitBy.loop (fun a b => classify a == classify b)
      (line.drop st.i) ag g (st.tokens.map Token.characters).reverse) ∧
  (st.i = line.length + 1 → st.tokens.map Token.characters = classRuns line)

/-- The loop invariant that counts the tokens of an arbitrary line without NUL characters:
before the first significant character nothing has been emitted, and afterwards the emitted
tokens are as many as the runs of significant characters completed so far. -/
def CountInv {V : Type} (line : List Char) (st : TokenizeState V) : Prop :=
  st.tokenLength ≤ st.i ∧
  (st.tokenLength = 0 → st.i ≤ line.length →
    st.tokens = [] ∧ significantChars (line.drop st.i) = significantChars line) ∧
  (st.tokenLength ≠ 0 → st.i ≤ line.length → ∃ ag g gs,
    classify ag = some st.prevState ∧ st.prevState ≠ TokenType.Initial ∧
    gs.length = st.tokens.length ∧
    classRuns (significantChars line) = List.splitBy.loop (fun a b => classify a == classify b)
      (significantChars (line.drop st.i)) ag g gs) ∧
  (st.i = line.length + 1 → st.tokens.length = (classRuns (significantChars line)).length)

/-- The loop invariant behind the value of the last token: once a character has reached the
classification, `prevState` is the class of the last such character, and when the loop has
ended after a last character of an operator or bracket class, the last token has the value
`0.0`. -/
def LastInv {V : Type} (ops : DoubleOps V) (line : List Char) (st : TokenizeState V) : Prop :=
  st.tokenLength ≤ st.i ∧
  (st.i ≤ line.length → ∀ k, ((line.take st.i).filterMap classify).getLast? = some k →
    st.tokenLength ≠ 0 ∧ st.prevState = k) ∧
  (st.i = line.length + 1 → ∀ k, (line.filterMap classify).getLast? = some k →
    k ≠ TokenType.Number → k ≠ TokenType.Initial →
    ∃ t, st.tokens.getLast? = some t ∧ t.value = ops.zero)

/-- The loop invariant behind the calls of `std::stod` in the recording run: in addition to
`PrecedenceInv`, every emitted token records the call of `std::stod` on its own text when this
text starts with a digit or `.`, and no call otherwise. -/
def StodInv (line : List Char) (st : TokenizeState (Option (List Char))) : Prop :=
  PrecedenceInv line st ∧
  ∀ r ∈ st.tokens, r.value =
    if r.characters.head?.bind classify = some TokenType.Number then some r.characters else none

/-! ## A concrete instance of the library operations -/

/-- The predicate `isspace` of the C locale. -/
def isSpace (c : Char) : Bool :=
  c = ' ' ∨ c = '\t' ∨ c = '\n' ∨ c = '\x0b' ∨ c = '\x0c' ∨ c = '\r'

/-- The predicate `isdigit`. -/
def isDigit (c : Char) : Bool := '0' ≤ c ∧ c ≤ '9'

/-- The number written by a sequence of decimal digits. -/
def digitsValue (ds : List Char) : Nat :=
  ds.foldl (fun acc c => 10 * acc + (c.toNat - '0'.toNat)) 0

/-- A model of `std::stod` on plain decimal literals, with exact rational values: leading
white space is skipped, an optional sign and the longest run of digits with at most one `.`
are read, whatever follows is ignored, and the call throws when no digit was read.
Exponents, hexadecimal literals, `inf`, `nan`, rounding to 53 bits and range errors are
outside this model. -/
def ratStod (s : List Char) : Option ℚ :=
  let s1 := s.dropWhile isSpace
  let neg : Bool := s1.head? = some '-'
  let s2 := if s1.head? = some '-' ∨ s1.head? = some '+' then s1.tail else s1
  let intDigits := s2.takeWhile isDigit
  let s3 := s2.dropWhile isDigit
  let fracDigits := if s3.head? = some '.' then s3.tail.takeWhile isDigit else []
  if intDigits = [] ∧ fracDigits = [] then none
  else
    let m : ℚ := mkRat (digitsValue (intDigits ++ fracDigits)) (10 ^ fracDigits.length)
    some (if neg then -m else m)

/-- A model of `pow` on rational numbers for integer exponents; other exponents are outside
this model and give `0`. -/
def ratPow (a b : ℚ) : ℚ := if b.den = 1 then a ^ b.num else 0

/-- Exact rational arithmetic as an instance of the library operations.  It agrees with
`double` arithmetic wherever all values involved are small integers. -/
def ratOps : DoubleOps ℚ :=
  { zero := 0
    add := fun a b => a + b
    sub := fun a b => a - b
    mul := fun a b => a * b
    div := fun a b => a / b
    pow := ratPow
    stod := ratStod }

/-- A token of kind `Number` and precedence `0` with the given text and value, the shape of
every token that `tokenize` emits for a run other than `*`, `/` and `^`. -/
def numberToken (characters : List Char) (value : ℚ) : Token ℚ :=
  { type := TokenType.Number, precedence := 0, characters := characters, value := value }

/-- A correctly typed Operator token with the given text and precedence. -/
def operatorToken (characters : List Char) (precedence : Nat) : Token ℚ :=
  { type := TokenType.Operator, precedence := precedence, characters := characters, value := 0 }

/-! ## Evaluation on concrete inputs -/

/-- C1 (the code departs from it): on the input "3 + 4 * 2" the pipeline
`calculate (shuntingYard (tokenize expr))` yields `2`, the value of the last token, and not
the value `11` of the expression. -/
theorem pipeline_three_plus_four_times_two :
    (tokenize ratOps "3 + 4 * 2".toList).map (fun ts => calculate ratOps (shuntingYard ts))
        = Except.ok (some 2) ∧
      (2 : ℚ) ≠ 11 :=
  ⟨rfl, by decide⟩

/-- C2 (the code departs from it): the five tokens of "3 + 4 * 2" all have kind `Number`,
the two built from the operator runs `+` and `*` included. -/
theorem tokenize_kinds_three_plus_four_times_two :
    (tokenize ratOps "3 + 4 * 2".toList).map (List.map Token.type)
      = Except.ok [TokenType.Number, TokenType.Number, TokenType.Number, TokenType.Number,
          TokenType.Number] := by
  rfl

/-! ## General facts about `tokenize` -/

section Tokenize

variable {V : Type} (ops : DoubleOps V) (line : List Char)

theorem makeToken_characters {prev : TokenType} {cs : List Char} {t : Token V}
    (h : makeToken ops prev cs = Except.ok t) : t.characters = cs := by
  unfold makeToken at h
  split_ifs at h <;> first
    | (cases h; rfl)
    | (split at h <;> first | (cases h; rfl) | cases h)

theorem makeToken_type {prev : TokenType} {cs : List Char} {t : Token V}
    (h : makeToken ops prev cs = Except.ok t) : t.type = TokenType.Number := by
  unfold makeToken at h
  split_ifs at h <;> first
    | (cases h; rfl)
    | (split at h <;> first | (cases h; rfl) | cases h)

/-- The three ways in which one execution of the loop body ends normally: the character is
skipped, a token is emitted and a new run starts, or the current run grows. -/
theorem tokenizeStep_cases {st st' : TokenizeState V}
    (h : tokenizeStep ops line st = Except.ok st') :
    ((charAt line st.i = ' ' ∨ classify (charAt line st.i) = none) ∧ st' = st) ∨
    (∃ state token, charAt line st.i ≠ ' ' ∧ classify (charAt line st.i) = some state ∧
        st.prevState ≠ state ∧ st.tokenLength ≠ 0 ∧
        makeToken ops st.prevState (substr line st.tokenStart st.tokenLength) = Except.ok token ∧
        st' = { st with tokens := st.tokens ++ [token], tokenStart := st.i, tokenLength := 1,
                        prevState := state }) ∨
    (∃ state, charAt line st.i ≠ ' ' ∧ classify (charAt line st.i) = some state ∧
        (st.prevState = state ∨ st.tokenLength = 0) ∧
        st' = { st with tokenLength := (st.tokenLength + 1) % 256, prevState := state }) := by
  unfold tokenizeStep at h
  simp only [] at h
  by_cases hsp : charAt line st.i = ' '
  · rw [if_pos hsp] at h
    cases h
    exact Or.inl ⟨Or.inl hsp, rfl⟩
  · rw [if_neg hsp] at h
    cases hc : classify (charAt line st.i) with
    | none =>
      rw [hc] at h
      cases h
      exact Or.inl ⟨Or.inr rfl, rfl⟩
    | some state =>
      rw [hc] at h
      simp only [] at h
      by_cases hf : st.prevState ≠ state ∧ st.tokenLength ≠ 0
      · rw [if_pos hf] at h
        cases hm : makeToken ops st.prevState (substr line st.tokenStart st.tokenLength) with
        | error e => rw [hm] at h; cases h
        | ok token =>
          rw [hm] at h
          cases h
          exact Or.inr (Or.inl ⟨state, token, hsp, rfl, hf.1, hf.2, rfl, rfl⟩)
      · rw [if_neg hf] at h
        cases h
        refine Or.inr (Or.inr ⟨state, hsp, rfl, ?_, rfl⟩)
        by_cases hp : st.prevState = state
        · exact Or.inl hp
        · right
          by_contra hl
          exact hf ⟨hp, hl⟩

/-- The loop never ends on a line of 255 characters or more: the 8-bit counter stays at or
below `255`, so the test `i <= line.size()` always succeeds. -/
theorem tokenizeLoop_long (hlen : 255 ≤ line.length) (fuel : Nat) (st : TokenizeState V)
    (hi : st.i < 256) (ts : List (Token V)) : tokenizeLoop ops line fuel st ≠ Except.ok ts := by
  induction fuel generalizing st with
  | zero => intro h; cases h
  | succ fuel ih =>
    intro h
    unfold tokenizeLoop at h
    rw [if_pos (by omega)] at h
    cases hs : tokenizeStep ops line st with
    | error e => rw [hs] at h; cases h
    | ok st' =>
      rw [hs] at h
      exact ih _ (Nat.mod_lt _ (by decide)) h

/-- A line on which `tokenize` returns has at most 254 characters. -/
theorem tokenizeFrom_ok_length {prev0 : TokenType} {ts : List (Token V)}
    (h : tokenizeFrom ops prev0 line = Except.ok ts) : line.length ≤ 254 := by
  by_contra hlen
  exact tokenizeLoop_long ops line (by omega) 256 _ (Nat.succ_pos 255) ts h

/-- Invariant rule for the loop of `tokenize` on a line of at most 254 characters: a property
of the loop state that every execution of the body at a counter `i ≤ line.length` preserves
holds of the state in which the loop ends, where the counter is `line.length + 1`. -/
theorem tokenizeLoop_invariant (Inv : TokenizeState V → Prop) (hlen : line.length ≤ 254)
    (hstep : ∀ st st', st.i ≤ line.length → Inv st → tokenizeStep ops line st = Except.ok st' →
      Inv { st' with i := st.i + 1 })
    (fuel : Nat) (st : TokenizeState V) (hi : st.i ≤ line.length + 1) (hinv : Inv st)
    (ts : List (Token V)) (h : tokenizeLoop ops line fuel st = Except.ok ts) :
    ∃ st', Inv st' ∧ st'.i = line.length + 1 ∧ st'.tokens = ts := by
  induction fuel generalizing st with
  | zero => cases h
  | succ fuel ih =>
    unfold tokenizeLoop at h
    by_cases hle : st.i ≤ line.length
    · rw [if_pos hle] at h
      cases hs : tokenizeStep ops line st with
      | error e => rw [hs] at h; cases h
      | ok st' =>
        rw [hs] at h
        have hmod : (st.i + 1) % 256 = st.i + 1 := Nat.mod_eq_of_lt (by omega)
        rw [hmod] at h
        exact ih _ (by simpa using hle) (hstep st st' hle hinv hs) h
    · rw [if_neg hle] at h
      cases h
      exact ⟨st, hinv, by omega, rfl⟩

/-! ### The iteration budget -/

theorem tokenizeLoop_succ (fuel : Nat) (st : TokenizeState V) :
    tokenizeLoop ops line (fuel + 1) st =
      if st.i ≤ line.length then
        match tokenizeStep ops line st with
        | Except.error e => Except.error e
        | Except.ok st' => tokenizeLoop ops line fuel { st' with i := (st.i + 1) % 256 }
      else
        Except.ok st.tokens :=
  rfl

/-- The only exception of `makeToken` is the one thrown by `std::stod`. -/
theorem makeToken_error {prev : TokenType} {cs : List Char} {e : TokenizeError}
    (h : makeToken ops prev cs = Except.error e) : e = TokenizeError.stodThrows := by
  unfold makeToken at h
  split_ifs at h
  split at h
  · cases h
  · cases h
    rfl

/-- The only exception of the loop body is the one thrown by `std::stod`. -/
theorem tokenizeStep_error {st : TokenizeState V} {e : TokenizeError}
    (h : tokenizeStep ops line st = Except.error e) : e = TokenizeError.stodThrows := by
  unfold tokenizeStep at h
  simp only at h
  split_ifs at h
  split at h
  · cases h
  · split_ifs at h
    split at h
    · rename_i hm
      cases h
      exact makeToken_error ops hm
    · cases h

/-- A result other than running out of iterations does not change when more iterations are
allowed. -/
theorem tokenizeLoop_fuel_succ (fuel : Nat) (st : TokenizeState V)
    (h : tokenizeLoop ops line fuel st ≠ Except.error TokenizeError.diverges) :
    tokenizeLoop ops line (fuel + 1) st = tokenizeLoop ops line fuel st := by
  induction fuel generalizing st with
  | zero => exact absurd rfl h
  | succ fuel ih =>
    rw [tokenizeLoop_succ ops line (fuel + 1), tokenizeLoop_succ ops line fuel]
    rw [tokenizeLoop_succ ops line fuel] at h
    by_cases hle : st.i ≤ line.length
    · rw [if_pos hle] at h
      rw [if_pos hle, if_pos hle]
      cases hs : tokenizeStep ops line st with
      | error e => rfl
      | ok st' =>
        rw [hs] at h
        exact ih _ h
    · rw [if_neg hle, if_neg hle]

/-- On a line of at most 254 characters the loop is left, normally or by an exception, within
`line.length + 2 - i` tests of its condition. -/
theorem tokenizeLoop_not_diverges (hlen : line.length ≤ 254) (fuel : Nat) (st : TokenizeState V)
    (hi : st.i ≤ line.length + 1) (hfuel : line.length + 2 ≤ fuel + st.i) :
    tokenizeLoop ops line fuel st ≠ Except.error TokenizeError.diverges := by
  induction fuel generalizing st with
  | zero => omega
  | succ fuel ih =>
    rw [tokenizeLoop_succ]
    by_cases hle : st.i ≤ line.length
    · rw [if_pos hle]
      cases hs : tokenizeStep ops line st with
      | error e =>
        rw [tokenizeStep_error ops line hs]
        intro hcontra
        cases hcontra
      | ok st' =>
        have hmod : (st.i + 1) % 256 = st.i + 1 := Nat.mod_eq_of_lt (by omega)
        refine ih _ ?_ ?_
        · simp only [hmod]
          omega
        · simp only [hmod]
          omega
    · rw [if_neg hle]
      intro hcontra
      cases hcontra

/-- If `tokenize` is still in its loop after 256 iterations, the line has 255 characters or
more, and then the loop is never left normally (`tokenizeLoop_long`). -/
theorem tokenizeFrom_diverges_length {prev0 : TokenType}
    (h : tokenizeFrom ops prev0 line = Except.error TokenizeError.diverges) :
    255 ≤ line.length := by
  by_contra hlen
  exact tokenizeLoop_not_diverges ops line (by omega) 256 _ (Nat.zero_le _)
    (by simp only; omega) h

/-! ### The number of loop iterations -/

/-- The loop with the record of its counter returns the tokens of the loop without it. -/
theorem tokenizeTrace_tokens (fuel : Nat) (st : TokenizeState V) :
    (tokenizeTrace ops line fuel st).map Prod.snd = tokenizeLoop ops line fuel st := by
  induction fuel generalizing st with
  | zero => rfl
  | succ fuel ih =>
    rw [tokenizeLoop_succ, tokenizeTrace]
    by_cases hle : st.i ≤ line.length
    · rw [if_pos hle, if_pos hle]
      cases hs : tokenizeStep ops line st with
      | error e => rfl
      | ok st' =>
        simp only
        rw [← ih]
        cases tokenizeTrace ops line fuel { st' with i := (st.i + 1) % 256 } with
        | error e => rfl
        | ok r => rfl
    · rw [if_neg hle, if_neg hle]
      rfl

/-- On a line of at most 254 characters a loop that returns has executed its body once at each
of the counter values from its start value to `line.length`, in increasing order. -/
theorem tokenizeTrace_range (hlen : line.length ≤ 254) (fuel : Nat) (st : TokenizeState V)
    (hi : st.i ≤ line.length + 1) (ts : List (Token V))
    (h : tokenizeLoop ops line fuel st = Except.ok ts) :
    tokenizeTrace ops line fuel st
      = Except.ok (List.range' st.i (line.length + 1 - st.i), ts) := by
  induction fuel generalizing st with
  | zero => cases h
  | succ fuel ih =>
    rw [tokenizeLoop_succ] at h
    rw [tokenizeTrace]
    by_cases hle : st.i ≤ line.length
    · rw [if_pos hle] at h ⊢
      cases hs : tokenizeStep ops line st with
      | error e => rw [hs] at h; cases h
      | ok st' =>
        rw [hs] at h
        have hmod : (st.i + 1) % 256 = st.i + 1 := Nat.mod_eq_of_lt (by omega)
        simp only
        rw [hmod] at h ⊢
        rw [ih { st' with i := st.i + 1 } (by simpa using hle) h]
        simp only
        have hcount : line.length + 1 - st.i = (line.length + 1 - (st.i + 1)) + 1 := by omega
        rw [hcount, List.range'_succ]
    · rw [if_neg hle] at h ⊢
      cases h
      have h0 : line.length + 1 - st.i = 0 := by omega
      rw [h0]
      rfl

/-! ### The uninitialised variable `prevState` -/

/-- While no run has been started the value of `prevState` has no effect on the loop. -/
theorem tokenizeLoop_prevState (fuel : Nat) (st : TokenizeState V) (h0 : st.tokenLength = 0)
    (p : TokenType) :
    tokenizeLoop ops line fuel { st with prevState := p } = tokenizeLoop ops line fuel st := by
  induction fuel generalizing st with
  | zero => rfl
  | succ fuel ih =>
    unfold tokenizeLoop
    simp only
    by_cases hle : st.i ≤ line.length
    · rw [if_pos hle, if_pos hle]
      unfold tokenizeStep
      simp only
      by_cases hsp : charAt line st.i = ' '
      · rw [if_pos hsp, if_pos hsp]
        exact ih { st with i := (st.i + 1) % 256 } h0
      · rw [if_neg hsp, if_neg hsp]
        cases classify (charAt line st.i) with
        | none => exact ih { st with i := (st.i + 1) % 256 } h0
        | some state =>
          have h1 : ¬ (p ≠ state ∧ st.tokenLength ≠ 0) := fun h => h.2 h0
          have h2 : ¬ (st.prevState ≠ state ∧ st.tokenLength ≠ 0) := fun h => h.2 h0
          simp only [if_neg h1, if_neg h2]
    · rw [if_neg hle, if_neg hle]

/-- The result of `tokenize` does not depend on the initial content of `prevState`. -/
theorem tokenizeFrom_eq_tokenize (prev0 : TokenType) :
    tokenizeFrom ops prev0 line = tokenize ops line :=
  (tokenizeLoop_prevState ops line 256
      { i := 0, tokenStart := 0, tokenLength := 0, prevState := TokenType.Initial, tokens := [] }
      rfl prev0)

/-! ### The kind of the emitted tokens -/

/-- Every token that `tokenize` returns has kind `Number`, whatever run it was built from. -/
theorem tokenize_type_number (ts : List (Token V)) (h : tokenize ops line = Except.ok ts) :
    ∀ t ∈ ts, t.type = TokenType.Number := by
  have hlen := tokenizeFrom_ok_length ops line h
  obtain ⟨st', hinv, _, rfl⟩ := tokenizeLoop_invariant ops line
    (fun st => ∀ t ∈ st.tokens, t.type = TokenType.Number) hlen
    (fun st st' _ hinv hs => by
      rcases tokenizeStep_cases ops line hs with ⟨_, hst⟩ | ⟨state, token, _, _, _, _, hm, hst⟩ |
          ⟨state, _, _, _, hst⟩ <;> rw [hst]
      · exact hinv
      · intro t ht
        rcases List.mem_append.mp ht with ht | ht
        · exact hinv t ht
        · rw [List.mem_singleton] at ht
          rw [ht]
          exact makeToken_type ops hm
      · exact hinv)
    256 _ (Nat.zero_le _) (fun t ht => by cases ht) ts h
  exact hinv

/-! ### The precedence of single-operator tokens -/

theorem classify_space : classify ' ' = none := by decide

theorem charAt_of_lt {i : Nat} (h : i < line.length) : charAt line i = line.get ⟨i, h⟩ := by
  unfold charAt
  rw [if_neg (by omega), List.getD_eq_getElem _ _ h, List.get_eq_getElem]

theorem charAt_length : charAt line line.length = '\x00' := by
  unfold charAt
  rw [if_pos rfl]

/-- A one-character window starts with the character at its start position. -/
theorem substr_singleton {pos len : Nat} {c : Char} (hpos : pos < line.length)
    (h : substr line pos len = [c]) : c = charAt line pos := by
  rw [charAt_of_lt line hpos, List.get_eq_getElem]
  unfold substr at h
  rw [List.drop_eq_getElem_cons hpos] at h
  cases len with
  | zero => simp at h
  | succ n =>
    rw [List.take_succ_cons] at h
    exact (List.cons.inj h).1.symm

/-- The token built from a run carries the precedence of the table, provided a text made of
one of `*`, `/`, `^` only comes from a run of the operator class. -/
theorem makeToken_precedence {prev : TokenType} {cs : List Char} {t : Token V}
    (h : makeToken ops prev cs = Except.ok t)
    (hop : cs = ['*'] ∨ cs = ['/'] ∨ cs = ['^'] → prev = TokenType.Operator) :
    PrecedenceOfText t := by
  have hcs := makeToken_characters ops h
  unfold PrecedenceOfText
  rw [hcs]
  unfold makeToken at h
  by_cases hp : prev = TokenType.Operator
  · rw [if_pos hp] at h
    split_ifs at h with h1 h2 h3
    · cases h
      rcases h1 with h1 | h1 <;> subst h1 <;> simp
    · cases h
      rcases h2 with h2 | h2 <;> subst h2 <;> simp
    · cases h
      subst h3
      simp
    · cases h
      refine ⟨fun _ => rfl, fun h' => absurd h' h2, fun h' => absurd h' h3⟩
  · have hno : ¬ (cs = ['*'] ∨ cs = ['/'] ∨ cs = ['^']) := fun h' => hp (hop h')
    have hprec : t.precedence = 0 := by
      rw [if_neg hp] at h
      split_ifs at h
      · split at h
        · cases h; rfl
        · cases h
      · cases h; rfl
    refine ⟨fun _ => hprec, fun h' => ?_, fun h' => ?_⟩
    · exact absurd (h'.elim Or.inl (fun x => Or.inr (Or.inl x))) hno
    · exact absurd (Or.inr (Or.inr h')) hno

theorem precedenceInv_step (hlen : line.length ≤ 254) (st st' : TokenizeState V)
    (hi : st.i ≤ line.length) (hinv : PrecedenceInv line st)
    (hs : tokenizeStep ops line st = Except.ok st') :
    PrecedenceInv line { st' with i := st.i + 1 } := by
  obtain ⟨htok, hwin⟩ := hinv
  obtain ⟨hbound, hzero, hclass⟩ := hwin hi
  rcases tokenizeStep_cases ops line hs with ⟨hskip, hst⟩ | ⟨state, token, _, hc, _, hl, hm, hst⟩ |
      ⟨state, _, hc, hor, hst⟩ <;> rw [hst]
  · -- the character is skipped
    refine ⟨htok, fun _ => ⟨by simp only; omega, fun h0 => ⟨(hzero h0).1, fun j hj => ?_⟩, hclass⟩⟩
    by_cases hji : j = st.i
    · subst hji
      rcases hskip with hsp | hn
      · rw [hsp]; exact classify_space
      · exact hn
    · exact (hzero h0).2 j (by simp only at hj; omega)
  · -- a token is emitted
    refine ⟨?_, fun _ => ⟨by simp only; omega, fun h0 => absurd h0 (by simp), fun _ => Or.inl hc⟩⟩
    intro t ht
    rcases List.mem_append.mp ht with ht | ht
    · exact htok t ht
    · rw [List.mem_singleton] at ht
      subst ht
      refine makeToken_precedence ops hm (fun hop => ?_)
      have hpos : st.tokenStart < line.length := by omega
      have hOp : classify (charAt line st.tokenStart) = some TokenType.Operator := by
        rcases hop with h | h | h
        · rw [← substr_singleton line hpos h]; decide
        · rw [← substr_singleton line hpos h]; decide
        · rw [← substr_singleton line hpos h]; decide
      rcases hclass hl with h | h
      · rw [hOp] at h
        exact (Option.some.inj h).symm
      · rw [hOp] at h
        cases h
  · -- the run grows
    have hmod : (st.tokenLength + 1) % 256 = st.tokenLength + 1 :=
      Nat.mod_eq_of_lt (by omega)
    refine ⟨htok, fun _ => ⟨by simp only [hmod]; omega, fun h0 => ?_, fun _ => ?_⟩⟩
    · simp only [hmod] at h0
      omega
    · simp only
      by_cases h0 : st.tokenLength = 0
      · obtain ⟨hs0, hsk⟩ := hzero h0
        rw [hs0]
        by_cases hi0 : st.i = 0
        · rw [hi0] at hc
          exact Or.inl hc
        · exact Or.inr (hsk 0 (by omega))
      · rcases hor with hp | hp
        · rw [← hp]
          exact hclass h0
        · exact absurd hp h0

/-- C7: every token returned by `tokenize` whose text is exactly one operator character has
precedence `0` for `+` and `-`, `1` for `*` and `/`, and `2` for `^`. -/
theorem tokenize_precedence (ts : List (Token V)) (h : tokenize ops line = Except.ok ts) :
    ∀ t ∈ ts, PrecedenceOfText t := by
  have hlen := tokenizeFrom_ok_length ops line h
  have hinit : PrecedenceInv line
      ({ i := 0, tokenStart := 0, tokenLength := 0, prevState := TokenType.Initial, tokens := [] } :
        TokenizeState V) := by
    refine ⟨fun t ht => ?_, fun _ => ⟨Nat.le_refl 0, fun _ => ⟨rfl, fun j hj => ?_⟩, fun h0 => ?_⟩⟩
    · cases ht
    · exact absurd hj (Nat.not_lt_zero j)
    · exact absurd rfl h0
  obtain ⟨st', hinv, _, rfl⟩ := tokenizeLoop_invariant ops line (PrecedenceInv line) hlen
    (precedenceInv_step ops line hlen) 256 _ (Nat.zero_le _) hinit ts h
  exact hinv.1

/-- Witness for C7 on the input "1+2*3^4-5/6": the five operator tokens carry the precedences
`0`, `1`, `2`, `0`, `1`. -/
theorem tokenize_precedence_witness :
    tokenize ratOps "1+2*3^4-5/6".toList = Except.ok
      [numberToken ['1'] 1, numberToken ['+'] 0, numberToken ['2'] 2,
        { numberToken ['*'] 0 with precedence := 1 }, numberToken ['3'] 3,
        { numberToken ['^'] 0 with precedence := 2 }, numberToken ['4'] 4, numberToken ['-'] 0,
        numberToken ['5'] 5, { numberToken ['/'] 0 with precedence := 1 }, numberToken ['6'] 6] ∧
    ∀ t ∈ [numberToken ['1'] 1, numberToken ['+'] 0, numberToken ['2'] 2,
        { numberToken ['*'] 0 with precedence := 1 }, numberToken ['3'] 3,
        { numberToken ['^'] 0 with precedence := 2 }, numberToken ['4'] 4, numberToken ['-'] 0,
        numberToken ['5'] 5, { numberToken ['/'] 0 with precedence := 1 }, numberToken ['6'] 6],
      PrecedenceOfText t :=
  ⟨rfl, tokenize_precedence ratOps "1+2*3^4-5/6".toList _ rfl⟩

/-! ### The value of the last token -/

/-- A token built from a run that is not of the Number class has the value `0.0`. -/
theorem makeToken_value {prev : TokenType} {cs : List Char} {t : Token V}
    (h : makeToken ops prev cs = Except.ok t) (hprev : prev ≠ TokenType.Number) :
    t.value = ops.zero := by
  unfold makeToken at h
  split_ifs at h <;> cases h <;> rfl

theorem take_succ_filterMap {i : Nat} (hlt : i < line.length) :
    (line.take (i + 1)).filterMap classify
      = (line.take i).filterMap classify ++ (classify (charAt line i)).toList := by
  rw [charAt_of_lt line hlt, List.take_succ, List.filterMap_append,
    List.getElem?_eq_getElem hlt]
  congr 1

theorem lastInv_step (hlen : line.length ≤ 254) (st st' : TokenizeState V)
    (hi : st.i ≤ line.length) (hinv : LastInv ops line st)
    (hs : tokenizeStep ops line st = Except.ok st') :
    LastInv ops line { st' with i := st.i + 1 } := by
  obtain ⟨hle, hlast, _⟩ := hinv
  have hmod : (st.tokenLength + 1) % 256 = st.tokenLength + 1 := Nat.mod_eq_of_lt (by omega)
  by_cases hlt : st.i < line.length
  · -- the counter is at a character of the line
    have htake := take_succ_filterMap line hlt
    rcases tokenizeStep_cases ops line hs with ⟨hskip, hst⟩ | ⟨state, token, _, hcl, _, _, _, hst⟩ |
        ⟨state, _, hcl, _, hst⟩ <;> rw [hst]
    · refine ⟨Nat.le_succ_of_le hle, fun _ k hk => ?_, fun h => ?_⟩
      · have hnone : classify (charAt line st.i) = none := by
          rcases hskip with h | h
          · rw [h]
            exact classify_space
          · exact h
        simp only at hk
        rw [htake, hnone, Option.toList, List.append_nil] at hk
        exact hlast hi k hk
      · simp only [Nat.add_right_cancel_iff] at h
        omega
    · refine ⟨Nat.succ_le_succ (Nat.zero_le _), fun _ k hk => ?_, fun h => ?_⟩
      · simp only at hk
        rw [htake, hcl, Option.toList, List.getLast?_append, List.getLast?_singleton] at hk
        simp only [Option.or_some, Option.some.injEq] at hk
        exact ⟨one_ne_zero, hk⟩
      · simp only [Nat.add_right_cancel_iff] at h
        omega
    · refine ⟨by simp only [hmod]; omega, fun _ k hk => ?_, fun h => ?_⟩
      · simp only at hk
        rw [htake, hcl, Option.toList, List.getLast?_append, List.getLast?_singleton] at hk
        simp only [Option.or_some, Option.some.injEq] at hk
        exact ⟨by simp only [hmod]; omega, hk⟩
      · simp only [Nat.add_right_cancel_iff] at h
        omega
  · -- the counter is at the end of the line
    have hend : st.i = line.length := by omega
    have hcI : classify (charAt line st.i) = some TokenType.Initial := by
      rw [hend, charAt_length]
      decide
    have hwhole : line.take st.i = line := by
      rw [hend, List.take_length]
    rw [hwhole] at hlast
    rcases tokenizeStep_cases ops line hs with ⟨hskip, _⟩ | ⟨state, token, _, hcl, _, _, hm, hst⟩ |
        ⟨state, _, hcl, hor, hst⟩
    · exfalso
      rcases hskip with h | h
      · rw [h, classify_space] at hcI
        cases hcI
      · rw [h] at hcI
        cases hcI
    · rw [hst]
      refine ⟨Nat.succ_le_succ (Nat.zero_le _), fun h => ?_, fun _ k hk hN _ => ?_⟩
      · simp only at h
        omega
      · refine ⟨token, by simp, makeToken_value ops hm ?_⟩
        rw [(hlast hi k hk).2]
        exact hN
    · rw [hst]
      refine ⟨by simp only [hmod]; omega, fun h => ?_, fun _ k hk _ hI => ?_⟩
      · simp only at h
        omega
      · exfalso
        obtain ⟨hl, hp⟩ := hlast hi k hk
        rw [hcI] at hcl
        rcases hor with h | h
        · exact hI (hp.symm.trans (h.trans (Option.some.inj hcl).symm))
        · exact hl h

/-- When the last character of the line that is not skipped is an operator or a bracket, the
last token that `tokenize` returns has the value `0.0`. -/
theorem tokenize_last_value (ts : List (Token V)) (h : tokenize ops line = Except.ok ts)
    (k : TokenType) (hk : (line.filterMap classify).getLast? = some k)
    (hN : k ≠ TokenType.Number) (hI : k ≠ TokenType.Initial) :
    ∃ t, ts.getLast? = some t ∧ t.value = ops.zero := by
  have hlen := tokenizeFrom_ok_length ops line h
  have hinit : LastInv ops line
      ({ i := 0, tokenStart := 0, tokenLength := 0, prevState := TokenType.Initial, tokens := [] } :
        TokenizeState V) := by
    refine ⟨Nat.le_refl 0, fun _ k hk => ?_, fun hi => ?_⟩
    · simp at hk
    · exact absurd hi (Nat.succ_ne_zero _).symm
  obtain ⟨st', hinv, hi', rfl⟩ := tokenizeLoop_invariant ops line (LastInv ops line) hlen
    (lastInv_step ops line hlen) 256 _ (Nat.zero_le _) hinit ts h
  exact hinv.2.2 hi' k hk hN hI

/-! ### The tokens of a line of significant characters -/

theorem substr_one {i : Nat} (h : i < line.length) : substr line i 1 = [line.get ⟨i, h⟩] := by
  unfold substr
  rw [List.drop_eq_getElem_cons h, List.get_eq_getElem]
  rfl

theorem substr_succ {pos len : Nat} (h : pos + len < line.length) :
    substr line pos (len + 1) = substr line pos len ++ [line.get ⟨pos + len, h⟩] := by
  unfold substr
  rw [List.take_succ, List.getElem?_drop, List.getElem?_eq_getElem h, List.get_eq_getElem]
  rfl

theorem get_of_eq {i j : Nat} (hi : i < line.length) (hj : j < line.length) (h : i = j) :
    line.get ⟨i, hi⟩ = line.get ⟨j, hj⟩ := by
  subst h
  rfl

theorem significant_ne_space {c : Char} (h : Significant c) : c ≠ ' ' := by
  intro hc
  rw [hc] at h
  exact h.1 classify_space

theorem splitBy_loop_cons_true {R : Char → Char → Bool} {a ag : Char} {as g : List Char}
    {gs : List (List Char)} (h : R ag a = true) :
    List.splitBy.loop R (a :: as) ag g gs = List.splitBy.loop R as a (ag :: g) gs := by
  rw [List.splitBy.loop, h]

theorem splitBy_loop_cons_false {R : Char → Char → Bool} {a ag : Char} {as g : List Char}
    {gs : List (List Char)} (h : R ag a = false) :
    List.splitBy.loop R (a :: as) ag g gs
      = List.splitBy.loop R as a [] ((ag :: g).reverse :: gs) := by
  rw [List.splitBy.loop, h]

theorem runsInv_step (hlen : line.length ≤ 254) (hclean : ∀ c ∈ line, Significant c)
    (st st' : TokenizeState V) (hi : st.i ≤ line.length) (hinv : RunsInv line st)
    (hs : tokenizeStep ops line st = Except.ok st') :
    RunsInv line { st' with i := st.i + 1 } := by
  obtain ⟨h0, hpos, _⟩ := hinv
  by_cases hlt : st.i < line.length
  · -- the counter is at a character of the line
    have hc := charAt_of_lt line hlt
    have hsig : Significant (line.get ⟨st.i, hlt⟩) := hclean _ (List.get_mem _ _ _)
    have hdrop : line.drop st.i = line.get ⟨st.i, hlt⟩ :: line.drop (st.i + 1) := by
      rw [List.drop_eq_getElem_cons hlt, List.get_eq_getElem]
    rcases tokenizeStep_cases ops line hs with ⟨hskip, _⟩ | ⟨state, token, _, hcl, hne, hl, hm, hst⟩ |
        ⟨state, _, hcl, hor, hst⟩
    · exfalso
      rw [hc] at hskip
      rcases hskip with h | h
      · exact significant_ne_space hsig h
      · exact hsig.1 h
    · rw [hc] at hcl
      rw [hst]
      have hipos : 0 < st.i := by
        by_contra hn
        exact hl (h0 (by omega)).2.1
      obtain ⟨ag, g, hsub, hsum, _, hag, hprev, hruns⟩ := hpos hipos hi
      refine ⟨fun h => absurd h (Nat.succ_ne_zero _), fun _ _ => ?_, fun h => ?_⟩
      · refine ⟨line.get ⟨st.i, hlt⟩, [], substr_one line hlt, rfl, one_ne_zero, hcl, ?_, ?_⟩
        · intro hI
          rw [show state = TokenType.Initial from hI] at hcl
          exact hsig.2 hcl
        · have hR : (fun a b => classify a == classify b) ag (line.get ⟨st.i, hlt⟩) = false := by
            simp only [hag, hcl, beq_eq_false_iff_ne, ne_eq, Option.some.injEq]
            exact hne
          rw [hruns, hdrop, splitBy_loop_cons_false hR]
          simp only [List.map_append, List.map_cons, List.map_nil, List.reverse_append,
            List.reverse_cons, List.reverse_nil, List.nil_append, List.singleton_append,
            makeToken_characters ops hm, hsub]
      · simp only [Nat.add_right_cancel_iff] at h
        omega
    · rw [hc] at hcl
      rw [hst]
      have hstate : state ≠ TokenType.Initial := by
        intro hI
        rw [hI] at hcl
        exact hsig.2 hcl
      refine ⟨fun h => absurd h (Nat.succ_ne_zero _), fun _ _ => ?_, fun h => ?_⟩
      · by_cases hi0 : st.i = 0
        · obtain ⟨hs0, hl0, ht0⟩ := h0 hi0
          have hlt0 : 0 < line.length := by omega
          have hget : line.get ⟨st.i, hlt⟩ = line.get ⟨0, hlt0⟩ := get_of_eq line hlt hlt0 hi0
          refine ⟨line.get ⟨st.i, hlt⟩, [], ?_, ?_, ?_, hcl, hstate, ?_⟩
          · simp only [hs0, hl0]
            rw [hget]
            exact substr_one line hlt0
          · simp only [hs0, hl0, hi0]
          · simp only [hl0]
            decide
          · simp only [ht0, List.map_nil, List.reverse_nil]
            have hwhole : List.drop st.i line = line := by
              rw [hi0]
              rfl
            exact congrArg (List.splitBy (fun a b => classify a == classify b))
              (hwhole.symm.trans hdrop)
        · obtain ⟨ag, g, hsub, hsum, hl0, hag, hprev, hruns⟩ := hpos (by omega) hi
          have hp : st.prevState = state := hor.resolve_right hl0
          have hmod : (st.tokenLength + 1) % 256 = st.tokenLength + 1 :=
            Nat.mod_eq_of_lt (by omega)
          refine ⟨line.get ⟨st.i, hlt⟩, ag :: g, ?_, ?_, ?_, hcl, hstate, ?_⟩
          · simp only [hmod]
            have hlt' : st.tokenStart + st.tokenLength < line.length := by omega
            rw [substr_succ line hlt', hsub, List.reverse_cons (line.get ⟨st.i, hlt⟩),
              get_of_eq line hlt' hlt hsum]
          · simp only [hmod]
            omega
          · simp only [hmod]
            omega
          · have hR : (fun a b => classify a == classify b) ag (line.get ⟨st.i, hlt⟩) = true := by
              simp only [hag, hcl, hp, beq_self_eq_true]
            rw [hruns, hdrop, splitBy_loop_cons_true hR]
      · simp only [Nat.add_right_cancel_iff] at h
        omega
  · -- the counter is at the end of the line
    have hend : st.i = line.length := by omega
    have hcI : classify (charAt line st.i) = some TokenType.Initial := by
      rw [hend, charAt_length]
      decide
    rcases tokenizeStep_cases ops line hs with ⟨hskip, _⟩ | ⟨state, token, _, hcl, hne, hl, hm, hst⟩ |
        ⟨state, _, hcl, hor, hst⟩
    · exfalso
      rcases hskip with h | h
      · rw [h, classify_space] at hcI
        cases hcI
      · rw [h] at hcI
        cases hcI
    · rw [hst]
      have hipos : 0 < st.i := by
        by_contra hn
        exact hl (h0 (by omega)).2.1
      obtain ⟨ag, g, hsub, hsum, _, hag, hprev, hruns⟩ := hpos hipos hi
      refine ⟨fun h => absurd h (Nat.succ_ne_zero _), fun _ h => ?_, fun _ => ?_⟩
      · simp only at h
        omega
      · rw [hruns, hend, List.drop_length, List.splitBy.loop]
        simp only [List.map_append, List.map_cons, List.map_nil, List.reverse_cons,
          List.reverse_append, List.reverse_reverse, List.reverse_nil, List.nil_append,
          makeToken_characters ops hm, hsub]
    · rw [hst]
      refine ⟨fun h => absurd h (Nat.succ_ne_zero _), fun _ h => ?_, fun _ => ?_⟩
      · simp only at h
        omega
      · by_cases hi0 : st.i = 0
        · obtain ⟨_, _, ht0⟩ := h0 hi0
          have hnil : line = [] := List.eq_nil_of_length_eq_zero (by omega)
          simp only [ht0, List.map_nil]
          rw [hnil]
          rfl
        · exfalso
          obtain ⟨ag, g, _, _, hl0, _, hprev, _⟩ := hpos (by omega) hi
          rw [hcI] at hcl
          have hp : st.prevState = state := hor.resolve_right hl0
          exact hprev (hp.trans (Option.some.inj hcl).symm)

/-- On a line made of significant characters only the texts of the tokens are the maximal runs
of characters of one class. -/
theorem tokenize_characters_of_significant (ts : List (Token V))
    (hclean : ∀ c ∈ line, Significant c) (h : tokenize ops line = Except.ok ts) :
    ts.map Token.characters = classRuns line := by
  have hlen := tokenizeFrom_ok_length ops line h
  have hinit : RunsInv line
      ({ i := 0, tokenStart := 0, tokenLength := 0, prevState := TokenType.Initial, tokens := [] } :
        TokenizeState V) := by
    refine ⟨fun _ => ⟨rfl, rfl, rfl⟩, fun hpos _ => ?_, fun hi => ?_⟩
    · exact absurd hpos (Nat.lt_irrefl 0)
    · exact absurd hi (Nat.succ_ne_zero _).symm
  obtain ⟨st', hinv, hi', rfl⟩ := tokenizeLoop_invariant ops line (RunsInv line) hlen
    (runsInv_step ops line hlen hclean) 256 _ (Nat.zero_le _) hinit ts h
  exact hinv.2.2 hi'

/-! ### The number of tokens of an arbitrary line -/

theorem classify_eq_initial {c : Char} (h : classify c = some TokenType.Initial) :
    c = '\x00' := by
  unfold classify at h
  split_ifs at h with h1 h2 h3 h4 h5
  · cases h
  · cases h
  · cases h
  · cases h
  · exact h5

theorem significantChars_cons_of_not (c : Char) (cs : List Char) (h : ¬ Significant c) :
    significantChars (c :: cs) = significantChars cs := by
  unfold significantChars
  rw [List.filter_cons_of_neg (by simpa using h)]

theorem significantChars_cons_of_pos (c : Char) (cs : List Char) (h : Significant c) :
    significantChars (c :: cs) = c :: significantChars cs := by
  unfold significantChars
  rw [List.filter_cons_of_pos (by simpa using h)]

theorem countInv_step (hlen : line.length ≤ 254) (hnul : '\x00' ∉ line)
    (st st' : TokenizeState V) (hi : st.i ≤ line.length) (hinv : CountInv line st)
    (hs : tokenizeStep ops line st = Except.ok st') :
    CountInv line { st' with i := st.i + 1 } := by
  obtain ⟨hle, hzero, hpos, _⟩ := hinv
  by_cases hlt : st.i < line.length
  · -- the counter is at a character of the line
    have hc := charAt_of_lt line hlt
    have hmem : line.get ⟨st.i, hlt⟩ ∈ line := List.get_mem _ _ _
    have hdrop : line.drop st.i = line.get ⟨st.i, hlt⟩ :: line.drop (st.i + 1) := by
      rw [List.drop_eq_getElem_cons hlt, List.get_eq_getElem]
    have hmod : (st.tokenLength + 1) % 256 = st.tokenLength + 1 :=
      Nat.mod_eq_of_lt (by omega)
    rcases tokenizeStep_cases ops line hs with ⟨hskip, hst⟩ | ⟨state, token, _, hcl, hne, hl, hm, hst⟩ |
        ⟨state, _, hcl, hor, hst⟩
    · -- the character is skipped
      have hnot : ¬ Significant (line.get ⟨st.i, hlt⟩) := by
        rw [hc] at hskip
        rcases hskip with h | h
        · exact fun hsig => significant_ne_space hsig h
        · exact fun hsig => hsig.1 h
      rw [hst]
      refine ⟨Nat.le_succ_of_le hle, fun h0 _ => ?_, fun h0 _ => ?_, fun h => ?_⟩
      · obtain ⟨ht, hsig⟩ := hzero h0 hi
        refine ⟨ht, ?_⟩
        rw [← hsig, hdrop, significantChars_cons_of_not _ _ hnot]
      · obtain ⟨ag, g, gs, h1, h2, h3, h4⟩ := hpos h0 hi
        refine ⟨ag, g, gs, h1, h2, h3, ?_⟩
        rw [h4, hdrop, significantChars_cons_of_not _ _ hnot]
      · simp only [Nat.add_right_cancel_iff] at h
        omega
    all_goals
      rw [hc] at hcl
      have hstate : state ≠ TokenType.Initial := by
        intro hI
        rw [hI] at hcl
        exact hnul (classify_eq_initial hcl ▸ hmem)
      have hsig : Significant (line.get ⟨st.i, hlt⟩) := by
        refine ⟨by rw [hcl]; exact Option.some_ne_none _, ?_⟩
        rw [hcl]
        exact fun h => hstate (Option.some.inj h)
      rw [hst]
    · -- a token is emitted
      obtain ⟨ag, g, gs, h1, h2, h3, h4⟩ := hpos hl hi
      refine ⟨Nat.succ_le_succ (Nat.zero_le _), fun h0 => absurd h0 one_ne_zero, fun _ _ => ?_,
        fun h => ?_⟩
      · have hR : (fun a b => classify a == classify b) ag (line.get ⟨st.i, hlt⟩) = false := by
          simp only [h1, hcl, beq_eq_false_iff_ne, ne_eq, Option.some.injEq]
          exact hne
        refine ⟨line.get ⟨st.i, hlt⟩, [], (ag :: g).reverse :: gs, hcl, hstate, ?_, ?_⟩
        · simp only [List.length_cons, List.length_append, List.length_nil, h3]
        · rw [h4, hdrop, significantChars_cons_of_pos _ _ hsig, splitBy_loop_cons_false hR]
      · simp only [Nat.add_right_cancel_iff] at h
        omega
    · -- the run grows
      refine ⟨by simp only [hmod]; omega, fun h0 => ?_, fun _ _ => ?_, fun h => ?_⟩
      · simp only [hmod] at h0
        omega
      · by_cases h0 : st.tokenLength = 0
        · obtain ⟨ht, hsg⟩ := hzero h0 hi
          refine ⟨line.get ⟨st.i, hlt⟩, [], [], hcl, hstate, ?_, ?_⟩
          · rw [ht]
            rfl
          · rw [← hsg, hdrop, significantChars_cons_of_pos _ _ hsig]
            rfl
        · obtain ⟨ag, g, gs, h1, h2, h3, h4⟩ := hpos h0 hi
          have hp : st.prevState = state := hor.resolve_right h0
          have hR : (fun a b => classify a == classify b) ag (line.get ⟨st.i, hlt⟩) = true := by
            simp only [h1, hcl, hp, beq_self_eq_true]
          refine ⟨line.get ⟨st.i, hlt⟩, ag :: g, gs, hcl, hstate, h3, ?_⟩
          rw [h4, hdrop, significantChars_cons_of_pos _ _ hsig, splitBy_loop_cons_true hR]
      · simp only [Nat.add_right_cancel_iff] at h
        omega
  · -- the counter is at the end of the line
    have hend : st.i = line.length := by omega
    have hcI : classify (charAt line st.i) = some TokenType.Initial := by
      rw [hend, charAt_length]
      decide
    have hnil : significantChars (line.drop st.i) = [] := by
      rw [hend, List.drop_length]
      rfl
    rcases tokenizeStep_cases ops line hs with ⟨hskip, _⟩ | ⟨state, token, _, hcl, hne, hl, hm, hst⟩ |
        ⟨state, _, hcl, hor, hst⟩
    · exfalso
      rcases hskip with h | h
      · rw [h, classify_space] at hcI
        cases hcI
      · rw [h] at hcI
        cases hcI
    · rw [hst]
      obtain ⟨ag, g, gs, h1, h2, h3, h4⟩ := hpos hl hi
      refine ⟨Nat.succ_le_succ (Nat.zero_le _), fun h0 => absurd h0 one_ne_zero, fun _ h => ?_,
        fun _ => ?_⟩
      · simp only at h
        omega
      · rw [h4, hnil, List.splitBy.loop]
        simp only [List.length_append, List.length_cons, List.length_nil, List.length_reverse, h3]
    · rw [hst]
      have h0 : st.tokenLength = 0 := by
        by_contra h0
        obtain ⟨ag, g, gs, h1, h2, h3, h4⟩ := hpos h0 hi
        rw [hcI] at hcl
        exact h2 ((hor.resolve_right h0).trans (Option.some.inj hcl).symm)
      obtain ⟨ht, hsg⟩ := hzero h0 hi
      refine ⟨by simp only [h0]; omega, fun _ h => ?_, fun _ h => ?_, fun _ => ?_⟩
      · simp only at h
        omega
      · simp only at h
        omega
      · simp only [ht, List.length_nil]
        rw [← hsg, hnil]
        rfl

/-- On a line without NUL characters `tokenize` returns as many tokens as the significant
characters of the line have maximal runs of one class. -/
theorem tokenize_length_eq_classRuns (ts : List (Token V)) (hnul : '\x00' ∉ line)
    (h : tokenize ops line = Except.ok ts) :
    ts.length = (classRuns (significantChars line)).length := by
  have hlen := tokenizeFrom_ok_length ops line h
  have hinit : CountInv line
      ({ i := 0, tokenStart := 0, tokenLength := 0, prevState := TokenType.Initial, tokens := [] } :
        TokenizeState V) := by
    refine ⟨Nat.le_refl 0, fun _ _ => ⟨rfl, rfl⟩, fun h0 _ => absurd rfl h0, fun hi => ?_⟩
    exact absurd hi (Nat.succ_ne_zero _).symm
  obtain ⟨st', hinv, hi', rfl⟩ := tokenizeLoop_invariant ops line (CountInv line) hlen
    (countInv_step ops line hlen hnul) 256 _ (Nat.zero_le _) hinit ts h
  exact hinv.2.2.2 hi'

/-- C3 (amended): `tokenize` has no special case for brackets.  On every line without NUL
characters on which it returns, the tokens are as many as the maximal runs of one character
class among the significant characters (digits, `.`, operators, brackets; spaces and unknown
symbols are skipped and do not end a run), so a bracket starts a token of its own only when
the previous significant character is of another class; and when the line has no skipped
character at all, the texts of the tokens are these runs. -/
theorem tokenize_runs (ts : List (Token V)) (hnul : '\x00' ∉ line)
    (h : tokenize ops line = Except.ok ts) :
    ts.length = (classRuns (significantChars line)).length ∧
      ((∀ c ∈ line, Significant c) → ts.map Token.characters = classRuns line) :=
  ⟨tokenize_length_eq_classRuns ops line ts hnul h,
    fun hclean => tokenize_characters_of_significant ops line ts hclean h⟩

/-! ### A line that is one run of digits and `.` -/

theorem tokenizeStep_grow (st : TokenizeState V) (state : TokenType)
    (hsp : charAt line st.i ≠ ' ') (hcl : classify (charAt line st.i) = some state)
    (hor : st.prevState = state ∨ st.tokenLength = 0) :
    tokenizeStep ops line st
      = Except.ok { st with tokenLength := (st.tokenLength + 1) % 256, prevState := state } := by
  have hcond : ¬ (st.prevState ≠ state ∧ st.tokenLength ≠ 0) := by
    rintro ⟨h1, h2⟩
    rcases hor with h | h
    · exact h1 h
    · exact h2 h
  unfold tokenizeStep
  simp only [if_neg hsp, hcl, if_neg hcond]

theorem tokenizeStep_emit (st : TokenizeState V) (state : TokenType)
    (hsp : charAt line st.i ≠ ' ') (hcl : classify (charAt line st.i) = some state)
    (hne : st.prevState ≠ state) (hl : st.tokenLength ≠ 0) :
    tokenizeStep ops line st =
      match makeToken ops st.prevState (substr line st.tokenStart st.tokenLength) with
      | Except.error e => Except.error e
      | Except.ok token =>
        Except.ok { st with
          tokens := st.tokens ++ [token]
          tokenStart := st.i
          tokenLength := (0 + 1) % 256
          prevState := state } := by
  unfold tokenizeStep
  simp only [if_neg hsp, hcl, if_pos (And.intro hne hl)]

/-- The text of a run of the Number class is handed to `std::stod`, whose result decides. -/
theorem makeToken_number (cs : List Char) :
    makeToken ops TokenType.Number cs =
      match ops.stod cs with
      | some v => Except.ok
          { type := TokenType.Number, precedence := 0, characters := cs, value := v }
      | none => Except.error TokenizeError.stodThrows := by
  unfold makeToken
  simp only [Token.default]
  rw [if_neg (by decide), if_pos trivial]

/-- The loop inside a line of Number-class characters, from a counter `k ≥ 1` on. -/
theorem tokenizeLoop_number_run (hlen : line.length ≤ 254)
    (hnum : ∀ c ∈ line, classify c = some TokenType.Number) (m k fuel : Nat)
    (hk : k + m = line.length) (hk1 : 1 ≤ k) (hfuel : m + 2 ≤ fuel) :
    tokenizeLoop ops line fuel
        { i := k, tokenStart := 0, tokenLength := k, prevState := TokenType.Number, tokens := [] }
      = match ops.stod line with
        | some v => Except.ok
            [{ type := TokenType.Number, precedence := 0, characters := line, value := v }]
        | none => Except.error TokenizeError.stodThrows := by
  induction m generalizing k fuel with
  | zero =>
    obtain ⟨fuel, rfl⟩ : ∃ f, fuel = f + 2 := ⟨fuel - 2, by omega⟩
    have hkl : k = line.length := by omega
    subst hkl
    have hstep := tokenizeStep_emit ops line
      { i := line.length, tokenStart := 0, tokenLength := line.length,
        prevState := TokenType.Number, tokens := ([] : List (Token V)) }
      TokenType.Initial
      (by simp only [charAt_length]; decide) (by simp only [charAt_length]; decide)
      (by intro h; cases h) (by simp only; omega)
    have hsub : substr line 0 line.length = line := by
      simp [substr]
    simp only [hsub, makeToken_number] at hstep
    rw [tokenizeLoop_succ, if_pos (Nat.le_refl _), hstep]
    cases ops.stod line with
    | none => rfl
    | some v =>
      simp only
      rw [tokenizeLoop_succ, if_neg (by
        simp only
        rw [Nat.mod_eq_of_lt (by omega)]
        omega)]
      rfl
  | succ m ih =>
    obtain ⟨fuel, rfl⟩ : ∃ f, fuel = f + 1 := ⟨fuel - 1, by omega⟩
    have hlt : k < line.length := by omega
    have hcl : classify (charAt line k) = some TokenType.Number := by
      rw [charAt_of_lt line hlt]
      exact hnum _ (List.get_mem _ _ _)
    have hsp : charAt line k ≠ ' ' := by
      intro h
      rw [h, classify_space] at hcl
      cases hcl
    have hstep := tokenizeStep_grow ops line
      { i := k, tokenStart := 0, tokenLength := k,
        prevState := TokenType.Number, tokens := ([] : List (Token V)) }
      TokenType.Number hsp hcl (Or.inl rfl)
    rw [tokenizeLoop_succ, if_pos (Nat.le_of_lt hlt), hstep]
    simp only
    rw [Nat.mod_eq_of_lt (show k + 1 < 256 by omega)]
    exact ih (k + 1) fuel (by omega) (by omega) (by omega)

/-- On a line that is one run of digits and `.` (at most 254 characters) `tokenize` hands
the whole run to `std::stod` and does what `std::stod` does. -/
theorem tokenize_number_run (hne : line ≠ []) (hlen : line.length ≤ 254)
    (hnum : ∀ c ∈ line, classify c = some TokenType.Number) :
    tokenize ops line =
      match ops.stod line with
      | some v => Except.ok
          [{ type := TokenType.Number, precedence := 0, characters := line, value := v }]
      | none => Except.error TokenizeError.stodThrows := by
  have hpos : 0 < line.length := List.length_pos.mpr hne
  have hcl : classify (charAt line 0) = some TokenType.Number := by
    rw [charAt_of_lt line hpos]
    exact hnum _ (List.get_mem _ _ _)
  have hsp : charAt line 0 ≠ ' ' := by
    intro h
    rw [h, classify_space] at hcl
    cases hcl
  have hstep := tokenizeStep_grow ops line
    { i := 0, tokenStart := 0, tokenLength := 0,
      prevState := TokenType.Initial, tokens := ([] : List (Token V)) }
    TokenType.Number hsp hcl (Or.inr rfl)
  unfold tokenize tokenizeFrom
  rw [tokenizeLoop_succ, if_pos (Nat.zero_le _), hstep]
  exact tokenizeLoop_number_run ops line hlen hnum (line.length - 1) 1 255 (by omega)
    (Nat.le_refl 1) (by omega)

/-! ### The calls of `std::stod` -/

theorem replayToken_error {r : Token (Option (List Char))} {e : TokenizeError}
    (h : replayToken ops r = Except.error e) : e = TokenizeError.stodThrows := by
  unfold replayToken at h
  split at h
  · cases h
  · split at h
    · cases h
    · cases h
      rfl

theorem replay_cons (r : Token (Option (List Char))) (rs : List (Token (Option (List Char)))) :
    replay ops (r :: rs) =
      match replayToken ops r with
      | Except.error e => Except.error e
      | Except.ok t =>
        match replay ops rs with
        | Except.error e => Except.error e
        | Except.ok ts => Except.ok (t :: ts) :=
  rfl

theorem replay_append_error {xs : List (Token (Option (List Char)))} {e : TokenizeError}
    (ys : List (Token (Option (List Char)))) (h : replay ops xs = Except.error e) :
    replay ops (xs ++ ys) = Except.error e := by
  induction xs with
  | nil => cases h
  | cons r rs ih =>
    rw [List.cons_append, replay_cons]
    rw [replay_cons] at h
    cases hr : replayToken ops r with
    | error e' =>
      rw [hr] at h
      exact h
    | ok t =>
      rw [hr] at h
      simp only at h ⊢
      cases hrs : replay ops rs with
      | error e' =>
        rw [hrs] at h
        rw [ih (by rw [hrs, ← Except.error.inj h])]
      | ok ts =>
        rw [hrs] at h
        cases h

theorem replay_concat_ok {xs : List (Token (Option (List Char)))} {a : List (Token V)}
    {r : Token (Option (List Char))} {t : Token V}
    (h : replay ops xs = Except.ok a) (hr : replayToken ops r = Except.ok t) :
    replay ops (xs ++ [r]) = Except.ok (a ++ [t]) := by
  induction xs generalizing a with
  | nil =>
    cases h
    rw [List.nil_append, replay_cons, hr]
    rfl
  | cons x xs ih =>
    rw [replay_cons] at h
    rw [List.cons_append, replay_cons]
    cases hx : replayToken ops x with
    | error e =>
      rw [hx] at h
      cases h
    | ok u =>
      rw [hx] at h
      simp only at h ⊢
      cases hxs : replay ops xs with
      | error e =>
        rw [hxs] at h
        cases h
      | ok us =>
        rw [hxs] at h
        cases h
        rw [ih hxs]
        rfl

theorem replay_concat_error {xs : List (Token (Option (List Char)))} {a : List (Token V)}
    {r : Token (Option (List Char))} {e : TokenizeError}
    (h : replay ops xs = Except.ok a) (hr : replayToken ops r = Except.error e) :
    replay ops (xs ++ [r]) = Except.error e := by
  induction xs generalizing a with
  | nil =>
    rw [List.nil_append, replay_cons, hr]
  | cons x xs ih =>
    rw [replay_cons] at h
    rw [List.cons_append, replay_cons]
    cases hx : replayToken ops x with
    | error e' =>
      rw [hx] at h
      cases h
    | ok u =>
      rw [hx] at h
      simp only at h ⊢
      cases hxs : replay ops xs with
      | error e' =>
        rw [hxs] at h
        cases h
      | ok us =>
        rw [ih hxs]

/-- The token of the recording run for a run of characters, and the token or the exception
that the operations `ops` give for the same run. -/
theorem makeToken_replay (prev : TokenType) (cs : List Char) :
    ∃ r, makeToken recordOps prev cs = Except.ok r ∧
      makeToken ops prev cs = replayToken ops r ∧
      (∀ w, r.value = some w → w = cs ∧ r.characters = cs) := by
  unfold makeToken
  simp only [Token.default]
  by_cases hO : prev = TokenType.Operator
  · simp only [if_pos hO]
    split_ifs
    all_goals
      refine ⟨_, rfl, rfl, ?_⟩
      intro w hw
      cases hw
  · simp only [if_neg hO]
    by_cases hN : prev = TokenType.Number
    · simp only [if_pos hN]
      refine ⟨{ type := TokenType.Number, precedence := 0, characters := cs, value := some cs },
        rfl, ?_, ?_⟩
      · simp only [replayToken]
      · intro w hw
        cases hw
        exact ⟨rfl, rfl⟩
    · simp only [if_neg hN]
      refine ⟨_, rfl, rfl, ?_⟩
      intro w hw
      cases hw

theorem tokenizeStep_skip (st : TokenizeState V)
    (h : charAt line st.i = ' ' ∨ classify (charAt line st.i) = none) :
    tokenizeStep ops line st = Except.ok st := by
  unfold tokenizeStep
  simp only
  by_cases hsp : charAt line st.i = ' '
  · rw [if_pos hsp]
  · rw [if_neg hsp, h.resolve_left hsp]

/-- The tokens that the loop returns begin with the tokens of the state it starts in. -/
theorem tokenizeLoop_extends (fuel : Nat) (st : TokenizeState V) (ts : List (Token V))
    (h : tokenizeLoop ops line fuel st = Except.ok ts) : ∃ more, ts = st.tokens ++ more := by
  induction fuel generalizing st with
  | zero => cases h
  | succ fuel ih =>
    rw [tokenizeLoop_succ] at h
    by_cases hle : st.i ≤ line.length
    · rw [if_pos hle] at h
      cases hs : tokenizeStep ops line st with
      | error e => rw [hs] at h; cases h
      | ok st' =>
        rw [hs] at h
        obtain ⟨more, hmore⟩ := ih _ h
        simp only at hmore
        rcases tokenizeStep_cases ops line hs with ⟨_, hst⟩ | ⟨state, token, _, _, _, _, _, hst⟩ |
            ⟨state, _, _, _, hst⟩
        · rw [hst] at hmore
          exact ⟨more, hmore⟩
        · rw [hst] at hmore
          exact ⟨[token] ++ more, by rw [hmore, List.append_assoc]⟩
        · rw [hst] at hmore
          exact ⟨more, hmore⟩
    · rw [if_neg hle] at h
      cases h
      exact ⟨[], (List.append_nil _).symm⟩

/-- One execution of the loop body in the recording run and with the operations `ops`: the
recording run goes on, and `ops` either throws in `std::stod` on the recorded text or reaches
the related state. -/
theorem tokenizeStep_replay (st : TokenizeState V) (st' : TokenizeState (Option (List Char)))
    (h : ReplayRel ops st st') :
    ∃ st1', tokenizeStep recordOps line st' = Except.ok st1' ∧
      ((tokenizeStep ops line st = Except.error TokenizeError.stodThrows ∧
          replay ops st1'.tokens = Except.error TokenizeError.stodThrows) ∨
        ∃ st1, tokenizeStep ops line st = Except.ok st1 ∧ ReplayRel ops st1 st1') := by
  obtain ⟨hi, hts, htl, hp, hrep⟩ := h
  by_cases hskip : charAt line st.i = ' ' ∨ classify (charAt line st.i) = none
  · refine ⟨st', tokenizeStep_skip recordOps line st' (hi ▸ hskip), Or.inr ⟨st, ?_, ?_⟩⟩
    · exact tokenizeStep_skip ops line st hskip
    · exact ⟨hi, hts, htl, hp, hrep⟩
  · have hsp : charAt line st.i ≠ ' ' := fun hc => hskip (Or.inl hc)
    obtain ⟨state, hcl⟩ : ∃ state, classify (charAt line st.i) = some state := by
      cases hc : classify (charAt line st.i) with
      | none => exact absurd (Or.inr hc) hskip
      | some state => exact ⟨state, rfl⟩
    have hsp' : charAt line st'.i ≠ ' ' := hi ▸ hsp
    have hcl' : classify (charAt line st'.i) = some state := hi ▸ hcl
    by_cases hcond : st.prevState ≠ state ∧ st.tokenLength ≠ 0
    · obtain ⟨r, hr, hm, _⟩ := makeToken_replay ops st.prevState
        (substr line st.tokenStart st.tokenLength)
      have hstep' := tokenizeStep_emit recordOps line st' state hsp' hcl' (hp ▸ hcond.1)
        (htl ▸ hcond.2)
      rw [← hp, ← hts, ← htl, hr] at hstep'
      have hstep := tokenizeStep_emit ops line st state hsp hcl hcond.1 hcond.2
      rw [hm] at hstep
      refine ⟨_, hstep', ?_⟩
      cases hrt : replayToken ops r with
      | error e =>
        have he := replayToken_error ops hrt
        subst he
        rw [hrt] at hstep
        exact Or.inl ⟨hstep, replay_concat_error ops hrep hrt⟩
      | ok t =>
        rw [hrt] at hstep
        exact Or.inr ⟨_, hstep, hi, hi, rfl, rfl, replay_concat_ok ops hrep hrt⟩
    · have hor : st.prevState = state ∨ st.tokenLength = 0 := by
        by_cases h1 : st.prevState = state
        · exact Or.inl h1
        · right
          by_contra h2
          exact hcond ⟨h1, h2⟩
      have hor' : st'.prevState = state ∨ st'.tokenLength = 0 := by
        rw [← hp, ← htl]
        exact hor
      refine ⟨_, tokenizeStep_grow recordOps line st' state hsp' hcl' hor',
        Or.inr ⟨_, tokenizeStep_grow ops line st state hsp hcl hor, hi, hts, ?_, rfl, hrep⟩⟩
      simp only [htl]

/-- The loop with the operations `ops` returns what the replay of the recording run gives. -/
theorem tokenizeLoop_replay (fuel : Nat) (st : TokenizeState V)
    (st' : TokenizeState (Option (List Char))) (h : ReplayRel ops st st')
    (recs : List (Token (Option (List Char))))
    (hrec : tokenizeLoop recordOps line fuel st' = Except.ok recs) :
    tokenizeLoop ops line fuel st = replay ops recs := by
  induction fuel generalizing st st' with
  | zero => cases hrec
  | succ fuel ih =>
    rw [tokenizeLoop_succ] at hrec ⊢
    have hi : st.i = st'.i := h.1
    by_cases hle : st.i ≤ line.length
    · rw [if_pos hle]
      rw [if_pos (hi ▸ hle)] at hrec
      obtain ⟨st1', hs', hcase⟩ := tokenizeStep_replay ops line st st' h
      rw [hs'] at hrec
      simp only at hrec
      rcases hcase with ⟨hs, hfail⟩ | ⟨st1, hs, hrel⟩
      · rw [hs]
        obtain ⟨more, hmore⟩ := tokenizeLoop_extends recordOps line fuel _ recs hrec
        simp only at hmore
        rw [hmore, replay_append_error ops more hfail]
      · rw [hs]
        simp only
        refine ih _ _ ?_ hrec
        obtain ⟨h1, h2, h3, h4, h5⟩ := hrel
        exact ⟨by simp only [hi], h2, h3, h4, h5⟩
    · rw [if_neg hle]
      rw [if_neg (hi ▸ hle)] at hrec
      cases hrec
      exact h.2.2.2.2.symm

/-- The loop body of the recording run never throws. -/
theorem tokenizeStep_record (st' : TokenizeState (Option (List Char))) :
    ∃ st1', tokenizeStep recordOps line st' = Except.ok st1' := by
  cases hs : tokenizeStep recordOps line st' with
  | ok st1' => exact ⟨st1', rfl⟩
  | error e =>
    exfalso
    unfold tokenizeStep at hs
    simp only at hs
    split_ifs at hs
    split at hs
    · cases hs
    · split_ifs at hs
      split at hs
      · rename_i hm
        obtain ⟨r, hr, _⟩ := makeToken_replay recordOps st'.prevState
          (substr line st'.tokenStart st'.tokenLength)
        rw [hr] at hm
        cases hm
      · cases hs

/-- The recording run never throws. -/
theorem tokenizeLoop_record (fuel : Nat) (st' : TokenizeState (Option (List Char))) :
    tokenizeLoop recordOps line fuel st' ≠ Except.error TokenizeError.stodThrows := by
  induction fuel generalizing st' with
  | zero =>
    intro h
    cases h
  | succ fuel ih =>
    rw [tokenizeLoop_succ]
    by_cases hle : st'.i ≤ line.length
    · rw [if_pos hle]
      obtain ⟨st1', hs'⟩ := tokenizeStep_record line st'
      rw [hs']
      exact ih _
    · rw [if_neg hle]
      intro h
      cases h

/-- On a line of at most 254 characters the recording run returns. -/
theorem tokenize_record (hlen : line.length ≤ 254) :
    ∃ recs, tokenize recordOps line = Except.ok recs := by
  cases hr : tokenize recordOps line with
  | ok recs => exact ⟨recs, rfl⟩
  | error e =>
    exfalso
    cases e
    · exact tokenizeLoop_record line 256 _ hr
    · exact tokenizeLoop_not_diverges recordOps line hlen 256 _ (Nat.zero_le _)
        (by simp only; omega) hr

/-- On a line of at most 254 characters `tokenize` with the operations `ops` is the replay of
the recording run. -/
theorem tokenize_eq_replay (recs : List (Token (Option (List Char))))
    (hrec : tokenize recordOps line = Except.ok recs) :
    tokenize ops line = replay ops recs :=
  tokenizeLoop_replay ops line 256 (tokenizeInit V) (tokenizeInit (Option (List Char)))
    ⟨rfl, rfl, rfl, rfl, rfl⟩ recs hrec

/-- The only exception of a replay is the one thrown by `std::stod`. -/
theorem replay_error {recs : List (Token (Option (List Char)))} {e : TokenizeError}
    (h : replay ops recs = Except.error e) : e = TokenizeError.stodThrows := by
  induction recs with
  | nil => cases h
  | cons r rs ih =>
    rw [replay_cons] at h
    cases hr : replayToken ops r with
    | error e' =>
      rw [hr] at h
      cases h
      exact replayToken_error ops hr
    | ok t =>
      rw [hr] at h
      simp only at h
      cases hrs : replay ops rs with
      | error e' =>
        rw [hrs] at h
        cases h
        exact ih hrs
      | ok ts =>
        rw [hrs] at h
        cases h

/-- A replay throws exactly when `std::stod` throws on one of the recorded texts. -/
theorem replay_error_iff (recs : List (Token (Option (List Char)))) :
    replay ops recs = Except.error TokenizeError.stodThrows ↔
      ∃ cs ∈ recs.filterMap Token.value, ops.stod cs = none := by
  induction recs with
  | nil =>
    constructor
    · intro h
      cases h
    · rintro ⟨cs, hcs, _⟩
      cases hcs
  | cons r rs ih =>
    rw [replay_cons]
    cases hv : r.value with
    | none =>
      have hr : replayToken ops r = Except.ok
          { type := r.type, precedence := r.precedence, characters := r.characters,
            value := ops.zero } := by
        unfold replayToken
        rw [hv]
      rw [hr, List.filterMap_cons_none hv, ← ih]
      simp only
      cases replay ops rs with
      | error e =>
        constructor
        · intro h
          exact h
        · intro h
          exact h
      | ok ts =>
        constructor
        · intro h
          cases h
        · intro h
          cases h
    | some cs =>
      rw [List.filterMap_cons_some hv]
      cases hs : ops.stod cs with
      | none =>
        have hr : replayToken ops r = Except.error TokenizeError.stodThrows := by
          unfold replayToken
          rw [hv]
          simp only [hs]
        rw [hr]
        exact ⟨fun _ => ⟨cs, List.mem_cons_self _ _, hs⟩, fun _ => rfl⟩
      | some v =>
        have hr : replayToken ops r = Except.ok
            { type := r.type, precedence := r.precedence, characters := r.characters,
              value := v } := by
          unfold replayToken
          rw [hv]
          simp only [hs]
        rw [hr]
        simp only
        constructor
        · intro h
          cases hrs : replay ops rs with
          | error e =>
            rw [hrs] at h
            cases h
            obtain ⟨w, hw, hnone⟩ := ih.mp hrs
            exact ⟨w, List.mem_cons_of_mem _ hw, hnone⟩
          | ok ts =>
            rw [hrs] at h
            cases h
        · rintro ⟨w, hw, hnone⟩
          rcases List.mem_cons.mp hw with rfl | hw
          · rw [hs] at hnone
            cases hnone
          · rw [ih.mpr ⟨w, hw, hnone⟩]

/-- A replay that returns has, for every recorded text, a token with the characters of the
recording token and the value that `std::stod` returns for the text. -/
theorem replay_values {recs : List (Token (Option (List Char)))} {ts : List (Token V)}
    (h : replay ops recs = Except.ok ts) :
    ∀ r ∈ recs, ∀ cs, r.value = some cs →
      ∃ t ∈ ts, t.characters = r.characters ∧ ops.stod cs = some t.value := by
  induction recs generalizing ts with
  | nil =>
    intro r hr
    cases hr
  | cons x xs ih =>
    rw [replay_cons] at h
    cases hx : replayToken ops x with
    | error e =>
      rw [hx] at h
      cases h
    | ok u =>
      rw [hx] at h
      simp only at h
      cases hxs : replay ops xs with
      | error e =>
        rw [hxs] at h
        cases h
      | ok us =>
        rw [hxs] at h
        cases h
        intro r hr cs hcs
        rcases List.mem_cons.mp hr with rfl | hr
        · refine ⟨u, List.mem_cons_self _ _, ?_⟩
          unfold replayToken at hx
          rw [hcs] at hx
          simp only at hx
          cases hs : ops.stod cs with
          | none =>
            rw [hs] at hx
            cases hx
          | some v =>
            rw [hs] at hx
            cases hx
            exact ⟨rfl, rfl⟩
        · obtain ⟨t, ht, hc, hv⟩ := ih hxs r hr cs hcs
          exact ⟨t, List.mem_cons_of_mem _ ht, hc, hv⟩

/-- In the recording run the text of a token that records a call of `std::stod` is the
argument of the call. -/
theorem tokenize_record_characters (recs : List (Token (Option (List Char))))
    (h : tokenize recordOps line = Except.ok recs) :
    ∀ r ∈ recs, ∀ cs, r.value = some cs → r.characters = cs := by
  have hlen := tokenizeFrom_ok_length recordOps line h
  obtain ⟨st', hinv, _, rfl⟩ := tokenizeLoop_invariant recordOps line
    (fun st => ∀ r ∈ st.tokens, ∀ cs, r.value = some cs → r.characters = cs) hlen
    (fun st st' _ hinv hs => by
      rcases tokenizeStep_cases recordOps line hs with ⟨_, hst⟩ |
          ⟨state, token, _, _, _, _, hm, hst⟩ | ⟨state, _, _, _, hst⟩ <;> rw [hst]
      · exact hinv
      · intro r hr cs hcs
        rcases List.mem_append.mp hr with hr | hr
        · exact hinv r hr cs hcs
        · rw [List.mem_singleton] at hr
          subst hr
          obtain ⟨r', hr', _, hw⟩ := makeToken_replay recordOps st.prevState
            (substr line st.tokenStart st.tokenLength)
          rw [hm] at hr'
          cases hr'
          obtain ⟨h1, h2⟩ := hw cs hcs
          rw [h2, h1]
      · exact hinv)
    256 _ (Nat.zero_le _) (fun r hr => absurd hr (List.not_mem_nil r)) recs h
  exact hinv

theorem makeToken_record {prev : TokenType} {cs : List Char}
    {t : Token (Option (List Char))} (h : makeToken recordOps prev cs = Except.ok t) :
    t.characters = cs ∧ t.value = if prev = TokenType.Number then some cs else none := by
  refine ⟨makeToken_characters recordOps h, ?_⟩
  by_cases hp : prev = TokenType.Number
  · rw [if_pos hp]
    rw [hp, makeToken_number] at h
    cases h
    rfl
  · rw [if_neg hp]
    exact makeToken_value recordOps h hp

theorem substr_head (pos len : Nat) (hpos : pos < line.length) (hlen : len ≠ 0) :
    (substr line pos len).head? = some (charAt line pos) := by
  obtain ⟨n, rfl⟩ := Nat.exists_eq_succ_of_ne_zero hlen
  unfold substr
  rw [List.drop_eq_getElem_cons hpos, List.take_succ_cons, List.head?_cons,
    charAt_of_lt line hpos, List.get_eq_getElem]

theorem stodInv_step (hlen : line.length ≤ 254) (hclean : ∀ c ∈ line, Significant c)
    (st st' : TokenizeState (Option (List Char))) (hi : st.i ≤ line.length)
    (hinv : StodInv line st) (hs : tokenizeStep recordOps line st = Except.ok st') :
    StodInv line { st' with i := st.i + 1 } := by
  refine ⟨precedenceInv_step recordOps line hlen st st' hi hinv.1 hs, ?_⟩
  obtain ⟨⟨_, hwin⟩, htok⟩ := hinv
  obtain ⟨hbound, _, hclass⟩ := hwin hi
  rcases tokenizeStep_cases recordOps line hs with ⟨_, hst⟩ |
      ⟨state, token, _, _, _, hl, hm, hst⟩ | ⟨state, _, _, _, hst⟩ <;> rw [hst]
  · exact htok
  · intro r hr
    rcases List.mem_append.mp hr with hr | hr
    · exact htok r hr
    · rw [List.mem_singleton] at hr
      subst hr
      obtain ⟨hchars, hval⟩ := makeToken_record hm
      have hpos : st.tokenStart < line.length := by omega
      have hsig : Significant (charAt line st.tokenStart) := by
        rw [charAt_of_lt line hpos]
        exact hclean _ (List.get_mem _ _ _)
      have hcl : classify (charAt line st.tokenStart) = some st.prevState :=
        (hclass hl).resolve_right hsig.1
      have hhead : r.characters.head?.bind classify = some st.prevState := by
        rw [hchars, substr_head line _ _ hpos hl]
        exact hcl
      rw [hval, hhead, hchars]
      by_cases hp : st.prevState = TokenType.Number
      · rw [if_pos hp, if_pos (congrArg some hp)]
      · rw [if_neg hp, if_neg (fun h => hp (Option.some.inj h))]
  · exact htok

theorem filterMap_value_eq_filter (recs : List (Token (Option (List Char))))
    (h : ∀ r ∈ recs, r.value =
      if r.characters.head?.bind classify = some TokenType.Number then some r.characters
      else none) :
    recs.filterMap Token.value =
      (recs.map Token.characters).filter
        (fun run => run.head?.bind classify = some TokenType.Number) := by
  induction recs with
  | nil => rfl
  | cons r rs ih =>
    have hr := h r (List.mem_cons_self r rs)
    have ih' := ih (fun x hx => h x (List.mem_cons_of_mem r hx))
    rw [List.map_cons]
    by_cases hc : r.characters.head?.bind classify = some TokenType.Number
    · rw [if_pos hc] at hr
      rw [List.filterMap_cons_some hr, List.filter_cons_of_pos (by simpa using hc), ih']
    · rw [if_neg hc] at hr
      rw [List.filterMap_cons_none hr, List.filter_cons_of_neg (by simpa using hc), ih']

/-- On a line of digits, `.`, operator characters and brackets only, the texts that
`tokenize` hands to `std::stod` are the numeric runs of the line, in order. -/
theorem stodTexts_of_significant (hlen : line.length ≤ 254)
    (hclean : ∀ c ∈ line, Significant c) : stodTexts line = numericRuns line := by
  obtain ⟨recs, hrec⟩ := tokenize_record line hlen
  have htexts : stodTexts line = recs.filterMap Token.value := by
    unfold stodTexts
    rw [hrec]
  have hinit : StodInv line (tokenizeInit (Option (List Char))) := by
    refine ⟨⟨fun t ht => absurd ht (List.not_mem_nil t),
      fun _ => ⟨Nat.le_refl 0, fun _ => ⟨rfl, fun j hj => absurd hj (Nat.not_lt_zero j)⟩,
        fun h0 => absurd rfl h0⟩⟩, fun r hr => absurd hr (List.not_mem_nil r)⟩
  obtain ⟨st', hinv, _, hts⟩ := tokenizeLoop_invariant recordOps line (StodInv line) hlen
    (stodInv_step line hlen hclean) 256 _ (Nat.zero_le _) hinit recs hrec
  have hvalues := hinv.2
  rw [hts] at hvalues
  rw [htexts, filterMap_value_eq_filter recs hvalues,
    tokenize_characters_of_significant recordOps line recs hclean hrec]
  rfl

/-- On a line of at most 254 characters `tokenize` throws exactly when `std::stod` throws on
one of the texts that it is called with. -/
theorem tokenize_stodThrows_iff (hlen : line.length ≤ 254) :
    tokenize ops line = Except.error TokenizeError.stodThrows ↔
      ∃ cs ∈ stodTexts line, ops.stod cs = none := by
  obtain ⟨recs, hrec⟩ := tokenize_record line hlen
  have htexts : stodTexts line = recs.filterMap Token.value := by
    unfold stodTexts
    rw [hrec]
  rw [htexts, tokenize_eq_replay ops line recs hrec]
  exact replay_error_iff ops recs

/-- C17 (amended): on every line of at most 254 characters `tokenize` fails with the
numeric-parse failure exactly when `std::stod` throws on one of the texts that `tokenize`
hands to it; when `std::stod` throws on none of them, `tokenize` returns, with a Number token
for each of these texts whose value is what `std::stod` returns for it; and on a line of
digits, `.`, operator characters and brackets only, these texts are exactly the numeric runs
of the line. -/
theorem tokenize_stod (hlen : line.length ≤ 254) :
    (tokenize ops line = Except.error TokenizeError.stodThrows ↔
      ∃ cs ∈ stodTexts line, ops.stod cs = none) ∧
    ((∀ cs ∈ stodTexts line, ops.stod cs ≠ none) →
      ∃ ts, tokenize ops line = Except.ok ts ∧
        ∀ cs ∈ stodTexts line, ∃ t ∈ ts, t.type = TokenType.Number ∧ t.characters = cs ∧
          ops.stod cs = some t.value) ∧
    ((∀ c ∈ line, Significant c) → stodTexts line = numericRuns line) := by
  refine ⟨tokenize_stodThrows_iff ops line hlen, fun hparse => ?_,
    stodTexts_of_significant line hlen⟩
  obtain ⟨recs, hrec⟩ := tokenize_record line hlen
  have htexts : stodTexts line = recs.filterMap Token.value := by
    unfold stodTexts
    rw [hrec]
  have heq := tokenize_eq_replay ops line recs hrec
  cases hr : replay ops recs with
  | error e =>
    exfalso
    have he := replay_error ops hr
    subst he
    obtain ⟨cs, hcs, hnone⟩ := (replay_error_iff ops recs).mp hr
    exact hparse cs (by rw [htexts]; exact hcs) hnone
  | ok ts =>
    rw [hr] at heq
    refine ⟨ts, heq, fun cs hcs => ?_⟩
    rw [htexts, List.mem_filterMap] at hcs
    obtain ⟨r, hr', hv⟩ := hcs
    obtain ⟨t, ht, hc, hs⟩ := replay_values ops hr r hr' cs hv
    refine ⟨t, ht, tokenize_type_number ops line ts heq t ht, ?_, hs⟩
    rw [hc]
    exact tokenize_record_characters line recs hrec r hr' cs hv

/-- On a line of at most 254 characters on which no call of `std::stod` throws, `tokenize`
returns after its loop body has been executed exactly once at each counter value `0, 1, ...,
line.length`, that is after `line.length + 1` iterations without a wrap of the 8-bit
counter; on a line of 255 characters or more the loop condition holds at every value of the
counter and the loop is never left normally, however many iterations are allowed. -/
theorem tokenize_iterations :
    (line.length ≤ 254 → (∀ cs ∈ stodTexts line, ops.stod cs ≠ none) →
      ∃ ts, tokenize ops line = Except.ok ts ∧
        tokenizeTrace ops line 256 (tokenizeInit V)
          = Except.ok (List.range (line.length + 1), ts)) ∧
    (255 ≤ line.length → ∀ fuel ts,
      tokenizeLoop ops line fuel (tokenizeInit V) ≠ Except.ok ts) := by
  refine ⟨fun hlen hstod => ?_, fun hlen fuel ts => ?_⟩
  · have hparse : tokenize ops line ≠ Except.error TokenizeError.stodThrows := by
      intro h
      obtain ⟨cs, hcs, hnone⟩ := (tokenize_stodThrows_iff ops line hlen).mp h
      exact hstod cs hcs hnone
    have hnd : tokenize ops line ≠ Except.error TokenizeError.diverges :=
      tokenizeLoop_not_diverges ops line hlen 256 _ (Nat.zero_le _) (by simp only; omega)
    cases hr : tokenize ops line with
    | error e =>
      cases e
      · exact absurd hr hparse
      · exact absurd hr hnd
    | ok ts =>
      refine ⟨ts, rfl, ?_⟩
      have h := tokenizeTrace_range ops line hlen 256 (tokenizeInit V) (Nat.zero_le _) ts hr
      rw [h, List.range_eq_range']
      rfl
  · exact tokenizeLoop_long ops line hlen fuel _ (Nat.succ_pos 255) ts

end Tokenize

/-- C3 (counterexample): `tokenize "(("` returns one token, whose text is both brackets, and
not two tokens. -/
theorem tokenize_two_left_brackets :
    tokenize ratOps "((".toList = Except.ok [numberToken ['(', '('] 0] ∧
      [numberToken ['(', '('] 0].length ≠ 2 :=
  ⟨rfl, by decide⟩

/-- Witness for C3 (amended) on the input ")))(": two tokens, with the texts ")))" and "(". -/
theorem tokenize_runs_witness :
    '\x00' ∉ ")))(".toList ∧
    tokenize ratOps ")))(".toList
      = Except.ok [numberToken [')', ')', ')'] 0, numberToken ['('] 0] ∧
    ([numberToken [')', ')', ')'] 0, numberToken ['('] 0].length
        = (classRuns (significantChars ")))(".toList)).length ∧
      ((∀ c ∈ ")))(".toList, Significant c) →
        [numberToken [')', ')', ')'] 0, numberToken ['('] 0].map Token.characters
          = classRuns ")))(".toList)) ∧
    classRuns ")))(".toList = [[')', ')', ')'], ['(']] :=
  ⟨by decide, rfl, tokenize_runs ratOps ")))(".toList _ (by decide) rfl, by decide⟩

/-- With spaces between them the two opening and the two closing brackets of "( ( 1 ) )" still
share one token each: three tokens in all. -/
theorem tokenize_length_spaced_brackets :
    (tokenize ratOps "( ( 1 ) )".toList).map List.length = Except.ok 3 ∧
      classRuns (significantChars "( ( 1 ) )".toList) = [['(', '('], ['1'], [')', ')']] :=
  ⟨rfl, by decide⟩

/-- C4 (the code departs from it): on the input "12 34" the token texts concatenate to
"12 3", which keeps the space and loses the `4`; the input without its space is "1234". -/
theorem tokenize_join_twelve_thirtyfour :
    (tokenize ratOps "12 34".toList).map (fun ts => (ts.map Token.characters).flatten)
        = Except.ok "12 3".toList ∧
      "12 3".toList ≠ "1234".toList :=
  ⟨rfl, by decide⟩

/-- C5 (the code departs from it): on the input "1 2" the only token has the text "1 ", whose
second character is a space. -/
theorem tokenize_text_one_space_two :
    (tokenize ratOps "1 2".toList).map (List.map Token.characters) = Except.ok [['1', ' ']] ∧
      ' ' ∈ ['1', ' '] :=
  ⟨rfl, by decide⟩

/-- C6 (counterexample): `tokenize "5 @ 3"` returns one token and not two; its value is `5`
and no token has the value `3`. -/
theorem tokenize_five_at_three :
    tokenize ratOps "5 @ 3".toList = Except.ok [numberToken ['5', ' '] 5] ∧
      [numberToken ['5', ' '] 5].length ≠ 2 :=
  ⟨rfl, by decide⟩

/-- C6 (amended): on "5 @ 3" the spaces and the unknown character `@` are skipped without
ending the run of the Number class: after the five characters the run has counted both digits
(`tokenLength = 2`) and no token has been emitted, and `tokenize` returns exactly one token,
of kind `Number`. -/
theorem tokenize_five_at_three_one_run :
    tokenizeAfter ratOps "5 @ 3".toList 5 (tokenizeInit ℚ)
      = Except.ok { i := 5, tokenStart := 0, tokenLength := 2, prevState := TokenType.Number,
                    tokens := [] } ∧
    (tokenize ratOps "5 @ 3".toList).map (List.map Token.type) = Except.ok [TokenType.Number] :=
  ⟨rfl, rfl⟩

/-! ## General facts about `shuntingYard` -/

section Converter

variable {V : Type}

/-- The loop of the `Operator` branch moves a prefix of the stack to the end of the queue. -/
theorem popOperators_split (token : Token V) (queue stack : List (Token V)) :
    ∃ popped, (popOperators token queue stack).1 = queue ++ popped ∧
      stack = popped ++ (popOperators token queue stack).2 := by
  induction stack generalizing queue with
  | nil => exact ⟨[], by simp [popOperators], by simp [popOperators]⟩
  | cons top rest ih =>
    unfold popOperators
    split_ifs with hc
    · obtain ⟨popped, h1, h2⟩ := ih (queue ++ [top])
      refine ⟨top :: popped, ?_, ?_⟩
      · rw [h1, List.append_assoc, List.singleton_append]
      · rw [List.cons_append, ← h2]
    · exact ⟨[], by simp, by simp⟩

/-- The loop of the `RBracket` branch moves a prefix of the stack to the end of the queue. -/
theorem popUntilLBracket_split (queue stack : List (Token V)) :
    ∃ popped, (popUntilLBracket queue stack).1 = queue ++ popped ∧
      stack = popped ++ (popUntilLBracket queue stack).2 := by
  induction stack generalizing queue with
  | nil => exact ⟨[], by simp [popUntilLBracket], by simp [popUntilLBracket]⟩
  | cons top rest ih =>
    unfold popUntilLBracket
    split_ifs with hc
    · obtain ⟨popped, h1, h2⟩ := ih (queue ++ [top])
      refine ⟨top :: popped, ?_, ?_⟩
      · rw [h1, List.append_assoc, List.singleton_append]
      · rw [List.cons_append, ← h2]
    · exact ⟨[], by simp, by simp⟩

theorem numberTokens_append (xs ys : List (Token V)) :
    numberTokens (xs ++ ys) = numberTokens xs ++ numberTokens ys := by
  unfold numberTokens
  exact List.filter_append xs ys

theorem numberTokens_eq_nil {xs : List (Token V)} (h : ∀ t ∈ xs, t.type ≠ TokenType.Number) :
    numberTokens xs = [] := by
  unfold numberTokens
  rw [List.filter_eq_nil_iff]
  intro t ht
  simpa using h t ht

/-- The `for` loop appends the Number tokens of its input, in order, to those of the queue,
and keeps Number tokens off the operator stack. -/
theorem shuntingYardLoop_numbers (tokens queue stack : List (Token V))
    (hstack : ∀ t ∈ stack, t.type ≠ TokenType.Number) :
    numberTokens (shuntingYardLoop tokens queue stack).1
        = numberTokens queue ++ numberTokens tokens ∧
      ∀ t ∈ (shuntingYardLoop tokens queue stack).2, t.type ≠ TokenType.Number := by
  induction tokens generalizing queue stack with
  | nil =>
    refine ⟨?_, hstack⟩
    simp [shuntingYardLoop, numberTokens]
  | cons token rest ih =>
    unfold shuntingYardLoop
    by_cases hN : token.type = TokenType.Number
    · rw [if_pos hN]
      obtain ⟨h1, h2⟩ := ih (queue ++ [token]) stack hstack
      refine ⟨?_, h2⟩
      rw [h1, numberTokens_append, List.append_assoc]
      congr 1
      simp [numberTokens, hN]
    · rw [if_neg hN]
      have hrest : numberTokens (token :: rest) = numberTokens rest := by
        simp [numberTokens, hN]
      rw [hrest]
      by_cases hO : token.type = TokenType.Operator
      · rw [if_pos hO]
        obtain ⟨popped, hq, hs⟩ := popOperators_split token queue stack
        have hpopped : ∀ t ∈ popped, t.type ≠ TokenType.Number := fun t ht =>
          hstack t (by rw [hs]; exact List.mem_append_left _ ht)
        have hst : ∀ t ∈ token :: (popOperators token queue stack).2,
            t.type ≠ TokenType.Number := by
          intro t ht
          rcases List.mem_cons.mp ht with rfl | ht
          · exact hN
          · exact hstack t (by rw [hs]; exact List.mem_append_right _ ht)
        obtain ⟨h1, h2⟩ := ih (popOperators token queue stack).1 _ hst
        refine ⟨?_, h2⟩
        rw [h1, hq, numberTokens_append, numberTokens_eq_nil hpopped, List.append_nil]
      · rw [if_neg hO]
        by_cases hL : token.type = TokenType.LBracket
        · rw [if_pos hL]
          refine ih queue (token :: stack) ?_
          intro t ht
          rcases List.mem_cons.mp ht with rfl | ht
          · exact hN
          · exact hstack t ht
        · rw [if_neg hL]
          by_cases hR : token.type = TokenType.RBracket
          · rw [if_pos hR]
            obtain ⟨popped, hq, hs⟩ := popUntilLBracket_split queue stack
            have hpopped : ∀ t ∈ popped, t.type ≠ TokenType.Number := fun t ht =>
              hstack t (by rw [hs]; exact List.mem_append_left _ ht)
            have hst : ∀ t ∈ (popUntilLBracket queue stack).2.tail,
                t.type ≠ TokenType.Number := fun t ht =>
              hstack t (by rw [hs]; exact List.mem_append_right _ (List.mem_of_mem_tail ht))
            obtain ⟨h1, h2⟩ := ih (popUntilLBracket queue stack).1 _ hst
            refine ⟨?_, h2⟩
            rw [h1, hq, numberTokens_append, numberTokens_eq_nil hpopped, List.append_nil]
          · rw [if_neg hR]
            exact ih queue stack hstack

/-- C8: the Number tokens of `shuntingYard ts` are the Number tokens of `ts`, in the same
order: no Number token is dropped, duplicated or moved past another Number token. -/
theorem shuntingYard_numberTokens (ts : List (Token V)) :
    numberTokens (shuntingYard ts) = numberTokens ts := by
  obtain ⟨h1, h2⟩ := shuntingYardLoop_numbers ts [] [] (fun t ht => by cases ht)
  unfold shuntingYard
  simp only
  rw [numberTokens_append, h1, numberTokens_eq_nil h2]
  simp [numberTokens]

/-! ### Stack accesses -/

theorem popOperatorsChecked_eq (token : Token V) (fuel : Nat) (queue stack : List (Token V))
    (hfuel : stack.length < fuel) :
    popOperatorsChecked token fuel queue stack = Except.ok (popOperators token queue stack) := by
  induction stack generalizing fuel queue with
  | nil =>
    cases fuel with
    | zero => exact absurd hfuel (Nat.lt_irrefl 0)
    | succ fuel => simp [popOperatorsChecked, popOperators]
  | cons top rest ih =>
    cases fuel with
    | zero => exact absurd hfuel (Nat.not_lt_zero _)
    | succ fuel =>
      have hrest : rest.length < fuel := by simpa using hfuel
      unfold popOperatorsChecked popOperators
      simp only [List.isEmpty_cons, Bool.false_eq_true, if_false, stackTop, stackPop, bind,
        Except.bind]
      by_cases hL : top.type = TokenType.LBracket
      · simp [hL]
      · by_cases hp : top.precedence > token.precedence
        · simp only [hL, hp, if_false, not_true_eq_false, ne_eq, not_false_eq_true, and_self,
            if_true]
          exact ih fuel (queue ++ [top]) hrest
        · simp [hL, hp]

theorem popUntilLBracketChecked_eq (fuel : Nat) (queue stack : List (Token V))
    (hfuel : stack.length < fuel) :
    popUntilLBracketChecked fuel queue stack = Except.ok (popUntilLBracket queue stack) := by
  induction stack generalizing fuel queue with
  | nil =>
    cases fuel with
    | zero => exact absurd hfuel (Nat.lt_irrefl 0)
    | succ fuel => simp [popUntilLBracketChecked, popUntilLBracket]
  | cons top rest ih =>
    cases fuel with
    | zero => exact absurd hfuel (Nat.not_lt_zero _)
    | succ fuel =>
      have hrest : rest.length < fuel := by simpa using hfuel
      unfold popUntilLBracketChecked popUntilLBracket
      simp only [List.isEmpty_cons, Bool.false_eq_true, if_false, stackTop, stackPop, bind,
        Except.bind]
      by_cases hL : top.type = TokenType.LBracket
      · simp [hL]
      · simp only [hL, if_false, ne_eq, not_false_eq_true, if_true]
        exact ih fuel (queue ++ [top]) hrest

theorem drainChecked_eq (fuel : Nat) (queue stack : List (Token V))
    (hfuel : stack.length < fuel) :
    drainChecked fuel queue stack = Except.ok (queue ++ stack) := by
  induction stack generalizing fuel queue with
  | nil =>
    cases fuel with
    | zero => exact absurd hfuel (Nat.lt_irrefl 0)
    | succ fuel => simp [drainChecked]
  | cons top rest ih =>
    cases fuel with
    | zero => exact absurd hfuel (Nat.not_lt_zero _)
    | succ fuel =>
      have hrest : rest.length < fuel := by simpa using hfuel
      unfold drainChecked
      simp only [List.isEmpty_cons, Bool.false_eq_true, if_false, stackTop, stackPop, bind,
        Except.bind]
      rw [ih fuel (queue ++ [top]) hrest, List.append_assoc, List.singleton_append]

theorem shuntingYardLoopChecked_eq (tokens queue stack : List (Token V)) :
    shuntingYardLoopChecked tokens queue stack
      = Except.ok (shuntingYardLoop tokens queue stack) := by
  induction tokens generalizing queue stack with
  | nil => rfl
  | cons token rest ih =>
    unfold shuntingYardLoopChecked shuntingYardLoop
    by_cases hN : token.type = TokenType.Number
    · rw [if_pos hN, if_pos hN]
      exact ih _ _
    · rw [if_neg hN, if_neg hN]
      by_cases hO : token.type = TokenType.Operator
      · rw [if_pos hO, if_pos hO, popOperatorsChecked_eq token _ queue stack (Nat.lt_succ_self _)]
        exact ih _ _
      · rw [if_neg hO, if_neg hO]
        by_cases hL : token.type = TokenType.LBracket
        · rw [if_pos hL, if_pos hL]
          exact ih _ _
        · rw [if_neg hL, if_neg hL]
          by_cases hR : token.type = TokenType.RBracket
          · rw [if_pos hR, if_pos hR,
              popUntilLBracketChecked_eq _ queue stack (Nat.lt_succ_self _)]
            simp only [bind, Except.bind]
            cases hs : (popUntilLBracket queue stack).2 with
            | nil => simpa using ih _ _
            | cons top stack' => simpa [stackPop] using ih _ _
          · rw [if_neg hR, if_neg hR]
            exact ih _ _

/-- C9: `shuntingYard` is total and never reads the top of or pops an empty operator stack:
for every token sequence the program with checked stack accesses ends without a fault, with
the output of `shuntingYard`. -/
theorem shuntingYardChecked_eq (ts : List (Token V)) :
    shuntingYardChecked ts = Except.ok (shuntingYard ts) := by
  unfold shuntingYardChecked shuntingYard
  rw [shuntingYardLoopChecked_eq]
  simp only [bind, Except.bind]
  exact drainChecked_eq _ _ _ (Nat.lt_succ_self _)

/-! ### Input that is already in postfix order -/

theorem shuntingYardLoop_leading_numbers (nums rest queue stack : List (Token V))
    (hn : ∀ t ∈ nums, t.type = TokenType.Number) :
    shuntingYardLoop (nums ++ rest) queue stack = shuntingYardLoop rest (queue ++ nums) stack := by
  induction nums generalizing queue with
  | nil => simp
  | cons t nums ih =>
    rw [List.cons_append, shuntingYardLoop, if_pos (hn t (List.mem_cons_self _ _)),
      ih _ (fun u hu => hn u (List.mem_cons_of_mem _ hu)), List.append_assoc,
      List.singleton_append]

/-- With one operator on the stack, operators of strictly decreasing precedence below that
of the stacked one leave the loop with the operators in their input order. -/
theorem shuntingYardLoop_decreasing (operators queue : List (Token V)) (top : Token V)
    (htop : top.type = TokenType.Operator)
    (ho : ∀ t ∈ operators, t.type = TokenType.Operator ∧ top.precedence > t.precedence)
    (hd : operators.Pairwise (fun a b => a.precedence > b.precedence)) :
    (shuntingYardLoop operators queue [top]).1 ++ (shuntingYardLoop operators queue [top]).2
      = queue ++ top :: operators := by
  induction operators generalizing queue top with
  | nil => rfl
  | cons o operators ih =>
    obtain ⟨hoT, hoP⟩ := ho o (List.mem_cons_self _ _)
    have hoN : o.type ≠ TokenType.Number := by rw [hoT]; decide
    have hpop : popOperators o queue [top] = (queue ++ [top], []) := by
      have hL : top.type ≠ TokenType.LBracket := by rw [htop]; decide
      rw [popOperators, if_pos ⟨hL, hoP⟩, popOperators]
    rw [shuntingYardLoop, if_neg hoN, if_pos hoT]
    simp only [hpop]
    rw [List.pairwise_cons] at hd
    rw [ih (queue ++ [top]) o hoT
      (fun t ht => ⟨(ho t (List.mem_cons_of_mem _ ht)).1, hd.1 t ht⟩) hd.2,
      List.append_assoc, List.singleton_append]

/-- C10 (amended): a token sequence that consists of Number tokens followed by Operator tokens
of strictly decreasing precedence is returned unchanged by `shuntingYard`; this covers every
valid postfix sequence with a single operator, `[a, b, op]`. -/
theorem shuntingYard_numbers_then_operators (nums operators : List (Token V))
    (hn : ∀ t ∈ nums, t.type = TokenType.Number)
    (ho : ∀ t ∈ operators, t.type = TokenType.Operator)
    (hd : operators.Pairwise (fun a b => a.precedence > b.precedence)) :
    shuntingYard (nums ++ operators) = nums ++ operators := by
  unfold shuntingYard
  simp only
  rw [shuntingYardLoop_leading_numbers nums operators [] [] hn, List.nil_append]
  cases operators with
  | nil => rfl
  | cons o operators =>
    have hoT : o.type = TokenType.Operator := ho o (List.mem_cons_self _ _)
    have hoN : o.type ≠ TokenType.Number := by rw [hoT]; decide
    rw [List.pairwise_cons] at hd
    rw [shuntingYardLoop, if_neg hoN, if_pos hoT]
    simp only [popOperators]
    exact shuntingYardLoop_decreasing operators nums o hoT
      (fun t ht => ⟨ho t (List.mem_cons_of_mem _ ht), hd.1 t ht⟩) hd.2

/-! ### Operators are neither lost nor duplicated -/

theorem operatorTokens_append (xs ys : List (Token V)) :
    operatorTokens (xs ++ ys) = operatorTokens xs ++ operatorTokens ys := by
  unfold operatorTokens
  exact List.filter_append xs ys

theorem operatorTokens_cons_of_ne {t : Token V} (ts : List (Token V))
    (h : t.type ≠ TokenType.Operator) : operatorTokens (t :: ts) = operatorTokens ts := by
  unfold operatorTokens
  rw [List.filter_cons_of_neg (by simpa using h)]

theorem operatorTokens_cons_of_eq {t : Token V} (ts : List (Token V))
    (h : t.type = TokenType.Operator) : operatorTokens (t :: ts) = t :: operatorTokens ts := by
  unfold operatorTokens
  rw [List.filter_cons_of_pos (by simpa using h)]

/-- The loop of the `RBracket` branch stops at an empty stack or at a left bracket, and what
it moves to the queue contains no left bracket. -/
theorem popUntilLBracket_stop (queue stack : List (Token V)) :
    ∃ popped, (popUntilLBracket queue stack).1 = queue ++ popped ∧
      stack = popped ++ (popUntilLBracket queue stack).2 ∧
      (∀ t ∈ popped, t.type ≠ TokenType.LBracket) ∧
      ((popUntilLBracket queue stack).2 = [] ∨
        ∃ top rest, (popUntilLBracket queue stack).2 = top :: rest ∧
          top.type = TokenType.LBracket) := by
  induction stack generalizing queue with
  | nil => exact ⟨[], by simp [popUntilLBracket], by simp [popUntilLBracket],
      fun t ht => absurd ht (List.not_mem_nil t), Or.inl rfl⟩
  | cons top rest ih =>
    unfold popUntilLBracket
    split_ifs with hc
    · obtain ⟨popped, h1, h2, h3, h4⟩ := ih (queue ++ [top])
      refine ⟨top :: popped, ?_, ?_, ?_, h4⟩
      · rw [h1, List.append_assoc, List.singleton_append]
      · rw [List.cons_append, ← h2]
      · intro t ht
        rcases List.mem_cons.mp ht with rfl | ht
        · exact hc
        · exact h3 t ht
    · refine ⟨[], by simp, by simp, fun t ht => absurd ht (List.not_mem_nil t),
        Or.inr ⟨top, rest, rfl, ?_⟩⟩
      simpa using hc

/-- What the loop of the `Operator` branch moves to the queue contains no left bracket. -/
theorem popOperators_popped (token : Token V) (queue stack : List (Token V)) :
    ∃ popped, (popOperators token queue stack).1 = queue ++ popped ∧
      stack = popped ++ (popOperators token queue stack).2 ∧
      ∀ t ∈ popped, t.type ≠ TokenType.LBracket := by
  induction stack generalizing queue with
  | nil => exact ⟨[], by simp [popOperators], by simp [popOperators],
      fun t ht => absurd ht (List.not_mem_nil t)⟩
  | cons top rest ih =>
    unfold popOperators
    split_ifs with hc
    · obtain ⟨popped, h1, h2, h3⟩ := ih (queue ++ [top])
      refine ⟨top :: popped, ?_, ?_, ?_⟩
      · rw [h1, List.append_assoc, List.singleton_append]
      · rw [List.cons_append, ← h2]
      · intro t ht
        rcases List.mem_cons.mp ht with rfl | ht
        · exact hc.1
        · exact h3 t ht
    · exact ⟨[], by simp, by simp, fun t ht => absurd ht (List.not_mem_nil t)⟩

/-- The `for` loop keeps the Operator tokens of the queue, the stack and the input, up to
their order, and adds at most one token of output per token of input. -/
theorem shuntingYardLoop_operators (tokens queue stack : List (Token V)) :
    (operatorTokens (shuntingYardLoop tokens queue stack).1
        ++ operatorTokens (shuntingYardLoop tokens queue stack).2).Perm
      (operatorTokens queue ++ operatorTokens stack ++ operatorTokens tokens) ∧
    (shuntingYardLoop tokens queue stack).1.length + (shuntingYardLoop tokens queue stack).2.length
      ≤ queue.length + stack.length + tokens.length := by
  induction tokens generalizing queue stack with
  | nil =>
    refine ⟨?_, Nat.le_refl _⟩
    simp [shuntingYardLoop, operatorTokens]
  | cons token rest ih =>
    unfold shuntingYardLoop
    by_cases hN : token.type = TokenType.Number
    · rw [if_pos hN]
      have hne : token.type ≠ TokenType.Operator := by rw [hN]; decide
      obtain ⟨h1, h2⟩ := ih (queue ++ [token]) stack
      refine ⟨?_, ?_⟩
      · rw [operatorTokens_cons_of_ne rest hne]
        rw [operatorTokens_append, operatorTokens_cons_of_ne [] hne] at h1
        simpa [operatorTokens] using h1
      · simp only [List.length_append, List.length_cons, List.length_nil] at h2 ⊢
        omega
    · rw [if_neg hN]
      by_cases hO : token.type = TokenType.Operator
      · rw [if_pos hO]
        obtain ⟨popped, hq, hs⟩ := popOperators_split token queue stack
        obtain ⟨h1, h2⟩ := ih (popOperators token queue stack).1
          (token :: (popOperators token queue stack).2)
        refine ⟨h1.trans ?_, ?_⟩
        · rw [hq, operatorTokens_append, operatorTokens_cons_of_eq _ hO,
            operatorTokens_cons_of_eq rest hO]
          conv_rhs => rw [hs, operatorTokens_append]
          simp only [List.append_assoc]
          refine List.Perm.append_left _ (List.Perm.append_left _ ?_)
          exact List.perm_middle.symm
        · have hlen : stack.length = popped.length + (popOperators token queue stack).2.length := by
            conv_lhs => rw [hs, List.length_append]
          have hq' := congrArg List.length hq
          rw [List.length_append] at hq'
          simp only [List.length_cons] at h2 ⊢
          omega
      · rw [if_neg hO]
        by_cases hL : token.type = TokenType.LBracket
        · rw [if_pos hL]
          obtain ⟨h1, h2⟩ := ih queue (token :: stack)
          refine ⟨?_, ?_⟩
          · rw [operatorTokens_cons_of_ne rest hO]
            rw [operatorTokens_cons_of_ne stack hO] at h1
            exact h1
          · simp only [List.length_cons] at h2 ⊢
            omega
        · rw [if_neg hL]
          by_cases hR : token.type = TokenType.RBracket
          · rw [if_pos hR]
            obtain ⟨popped, hq, hs, _, hstop⟩ := popUntilLBracket_stop queue stack
            obtain ⟨h1, h2⟩ := ih (popUntilLBracket queue stack).1
              (popUntilLBracket queue stack).2.tail
            have htail : operatorTokens (popUntilLBracket queue stack).2.tail
                = operatorTokens (popUntilLBracket queue stack).2 := by
              rcases hstop with h | ⟨top, rest', h, htop⟩
              · rw [h]
                rfl
              · rw [h, List.tail_cons, operatorTokens_cons_of_ne rest' (by rw [htop]; decide)]
            refine ⟨h1.trans ?_, ?_⟩
            · rw [htail, hq, operatorTokens_append, operatorTokens_cons_of_ne rest hO]
              conv_rhs => rw [hs, operatorTokens_append]
              simp only [List.append_assoc]
              exact List.Perm.refl _
            · have hlen : stack.length
                  = popped.length + (popUntilLBracket queue stack).2.length := by
                conv_lhs => rw [hs, List.length_append]
              have hq' := congrArg List.length hq
              rw [List.length_append] at hq'
              simp only [List.length_cons, List.length_tail] at h2 ⊢
              omega
          · rw [if_neg hR]
            obtain ⟨h1, h2⟩ := ih queue stack
            refine ⟨?_, ?_⟩
            · rw [operatorTokens_cons_of_ne rest hO]
              exact h1
            · simp only [List.length_cons] at h2 ⊢
              omega

/-- C20: the Operator tokens of `shuntingYard ts` are a permutation of the Operator tokens of
`ts`, whatever the bracket nesting, and the output is never longer than `ts`. -/
theorem shuntingYard_operatorTokens (ts : List (Token V)) :
    (operatorTokens (shuntingYard ts)).Perm (operatorTokens ts) ∧
      (shuntingYard ts).length ≤ ts.length := by
  obtain ⟨h1, h2⟩ := shuntingYardLoop_operators ts [] []
  unfold shuntingYard
  simp only
  refine ⟨?_, ?_⟩
  · rw [operatorTokens_append]
    simpa [operatorTokens] using h1
  · simp only [List.length_append, List.length_nil] at h2 ⊢
    omega

/-! ### Balanced brackets -/

theorem countType_cons (k : TokenType) (t : Token V) (ts : List (Token V)) :
    countType k (t :: ts) = countType k ts + if t.type = k then 1 else 0 := by
  unfold countType
  rw [List.countP_cons]
  simp

theorem countType_append (k : TokenType) (xs ys : List (Token V)) :
    countType k (xs ++ ys) = countType k xs + countType k ys := by
  unfold countType
  exact List.countP_append _ xs ys

theorem countType_eq_zero {k : TokenType} {ts : List (Token V)}
    (h : ∀ t ∈ ts, t.type ≠ k) : countType k ts = 0 := by
  unfold countType
  rw [List.countP_eq_zero]
  intro t ht
  simpa using h t ht

theorem of_countType_eq_zero {k : TokenType} {ts : List (Token V)}
    (h : countType k ts = 0) : ∀ t ∈ ts, t.type ≠ k := by
  unfold countType at h
  rw [List.countP_eq_zero] at h
  intro t ht
  simpa using h t ht

/-- The condition on the prefixes of `token :: rest` passes to `rest` when the bracket depth
is adjusted by the first token. -/
theorem balanced_tail (token : Token V) (rest : List (Token V)) (depth depth' : Nat)
    (hpre : ∀ n, n ≤ (token :: rest).length →
      countType TokenType.RBracket ((token :: rest).take n)
        ≤ depth + countType TokenType.LBracket ((token :: rest).take n))
    (htot : countType TokenType.RBracket (token :: rest)
      = depth + countType TokenType.LBracket (token :: rest))
    (hd : depth' + (if token.type = TokenType.RBracket then 1 else 0)
      = depth + (if token.type = TokenType.LBracket then 1 else 0)) :
    (∀ n, n ≤ rest.length →
      countType TokenType.RBracket (rest.take n)
        ≤ depth' + countType TokenType.LBracket (rest.take n)) ∧
    countType TokenType.RBracket rest = depth' + countType TokenType.LBracket rest := by
  refine ⟨fun n hn => ?_, ?_⟩
  · have h := hpre (n + 1) (by simpa using hn)
    rw [List.take_succ_cons, countType_cons, countType_cons] at h
    omega
  · rw [countType_cons, countType_cons] at htot
    omega

/-- With as many left brackets on the stack as the rest of the input closes, the `for` loop
ends with Number and Operator tokens in the queue and Operator tokens on the stack. -/
theorem shuntingYardLoop_balanced (tokens queue stack : List (Token V))
    (hq : ∀ t ∈ queue, t.type = TokenType.Number ∨ t.type = TokenType.Operator)
    (hs : ∀ t ∈ stack, t.type = TokenType.Operator ∨ t.type = TokenType.LBracket)
    (hpre : ∀ n, n ≤ tokens.length →
      countType TokenType.RBracket (tokens.take n)
        ≤ countType TokenType.LBracket stack + countType TokenType.LBracket (tokens.take n))
    (htot : countType TokenType.RBracket tokens
      = countType TokenType.LBracket stack + countType TokenType.LBracket tokens) :
    (∀ t ∈ (shuntingYardLoop tokens queue stack).1,
        t.type = TokenType.Number ∨ t.type = TokenType.Operator) ∧
      ∀ t ∈ (shuntingYardLoop tokens queue stack).2, t.type = TokenType.Operator := by
  induction tokens generalizing queue stack with
  | nil =>
    refine ⟨hq, fun t ht => ?_⟩
    have h0 : countType TokenType.LBracket stack = 0 := by
      simp only [countType, List.countP_nil] at htot
      unfold countType
      omega
    rcases hs t ht with h | h
    · exact h
    · exact absurd h (of_countType_eq_zero h0 t ht)
  | cons token rest ih =>
    unfold shuntingYardLoop
    by_cases hN : token.type = TokenType.Number
    · rw [if_pos hN]
      obtain ⟨hpre', htot'⟩ := balanced_tail token rest _ (countType TokenType.LBracket stack)
        hpre htot (by simp [hN])
      refine ih (queue ++ [token]) stack ?_ hs hpre' htot'
      intro t ht
      rcases List.mem_append.mp ht with ht | ht
      · exact hq t ht
      · rw [List.mem_singleton] at ht
        rw [ht]
        exact Or.inl hN
    · rw [if_neg hN]
      by_cases hO : token.type = TokenType.Operator
      · rw [if_pos hO]
        obtain ⟨popped, hq1, hs1, hpop⟩ := popOperators_popped token queue stack
        have hcount : countType TokenType.LBracket (token :: (popOperators token queue stack).2)
            = countType TokenType.LBracket stack := by
          conv_rhs => rw [hs1, countType_append, countType_eq_zero hpop]
          rw [countType_cons, if_neg (by rw [hO]; decide)]
          omega
        obtain ⟨hpre', htot'⟩ := balanced_tail token rest _
          (countType TokenType.LBracket (token :: (popOperators token queue stack).2))
          hpre htot (by rw [hcount]; simp [hO])
        refine ih _ _ ?_ ?_ hpre' htot'
        · rw [hq1]
          intro t ht
          rcases List.mem_append.mp ht with ht | ht
          · exact hq t ht
          · rcases hs t (by rw [hs1]; exact List.mem_append_left _ ht) with h | h
            · exact Or.inr h
            · exact absurd h (hpop t ht)
        · intro t ht
          rcases List.mem_cons.mp ht with rfl | ht
          · exact Or.inl hO
          · exact hs t (by rw [hs1]; exact List.mem_append_right _ ht)
      · rw [if_neg hO]
        by_cases hL : token.type = TokenType.LBracket
        · rw [if_pos hL]
          obtain ⟨hpre', htot'⟩ := balanced_tail token rest _
            (countType TokenType.LBracket (token :: stack)) hpre htot
            (by rw [countType_cons]; simp [hL])
          refine ih queue (token :: stack) hq ?_ hpre' htot'
          intro t ht
          rcases List.mem_cons.mp ht with rfl | ht
          · exact Or.inr hL
          · exact hs t ht
        · rw [if_neg hL]
          by_cases hR : token.type = TokenType.RBracket
          · rw [if_pos hR]
            obtain ⟨popped, hq1, hs1, hpop, hstop⟩ := popUntilLBracket_stop queue stack
            have hone : 1 ≤ countType TokenType.LBracket stack := by
              have h := hpre 1 (by simp)
              rw [List.take_succ_cons, List.take_zero, countType_cons, countType_cons, if_pos hR,
                if_neg hL] at h
              simp only [countType, List.countP_nil] at h
              unfold countType
              omega
            have hsame : countType TokenType.LBracket (popUntilLBracket queue stack).2
                = countType TokenType.LBracket stack := by
              conv_rhs => rw [hs1, countType_append, countType_eq_zero hpop]
              omega
            rcases hstop with hnil | ⟨top, rest', hcons, htop⟩
            · rw [hnil] at hsame
              simp only [countType, List.countP_nil] at hsame
              unfold countType at hone
              omega
            · have hcount : countType TokenType.LBracket (popUntilLBracket queue stack).2.tail + 1
                  = countType TokenType.LBracket stack := by
                rw [← hsame, hcons, List.tail_cons, countType_cons, if_pos htop]
              obtain ⟨hpre', htot'⟩ := balanced_tail token rest _
                (countType TokenType.LBracket (popUntilLBracket queue stack).2.tail)
                hpre htot (by rw [if_pos hR, if_neg hL]; omega)
              refine ih _ _ ?_ ?_ hpre' htot'
              · rw [hq1]
                intro t ht
                rcases List.mem_append.mp ht with ht | ht
                · exact hq t ht
                · rcases hs t (by rw [hs1]; exact List.mem_append_left _ ht) with h | h
                  · exact Or.inr h
                  · exact absurd h (hpop t ht)
              · intro t ht
                exact hs t (by
                  rw [hs1]
                  exact List.mem_append_right _ (List.mem_of_mem_tail ht))
          · rw [if_neg hR]
            obtain ⟨hpre', htot'⟩ := balanced_tail token rest _
              (countType TokenType.LBracket stack) hpre htot (by simp [hL, hR])
            exact ih queue stack hq hs hpre' htot'

/-- C15: on a token sequence with balanced brackets the output of `shuntingYard` contains
neither a left nor a right bracket. -/
theorem shuntingYard_balanced (ts : List (Token V)) (h : Balanced ts) :
    ∀ t ∈ shuntingYard ts, t.type ≠ TokenType.LBracket ∧ t.type ≠ TokenType.RBracket := by
  obtain ⟨h1, h2⟩ := shuntingYardLoop_balanced ts [] []
    (fun t ht => absurd ht (List.not_mem_nil t)) (fun t ht => absurd ht (List.not_mem_nil t))
    (fun n hn => by
      have := h.1 n hn
      simp only [countType, List.countP_nil] at this ⊢
      omega)
    (by
      have := h.2
      simp only [countType, List.countP_nil] at this ⊢
      omega)
  intro t ht
  unfold shuntingYard at ht
  simp only at ht
  rcases List.mem_append.mp ht with ht | ht
  · rcases h1 t ht with h | h <;> rw [h] <;> decide
  · rw [h2 t ht]
    decide

end Converter

/-- C10 (counterexample): the tokens `1 2 + 3 *` are bracket-free and in valid postfix
order, and `shuntingYard` returns `1 2 3 * +`, which is a different sequence. -/
theorem shuntingYard_postfix_not_fixed :
    ValidPostfix [numberToken ['1'] 1, numberToken ['2'] 2, operatorToken ['+'] 0,
        numberToken ['3'] 3, operatorToken ['*'] 1] ∧
    shuntingYard [numberToken ['1'] 1, numberToken ['2'] 2, operatorToken ['+'] 0,
        numberToken ['3'] 3, operatorToken ['*'] 1]
      = [numberToken ['1'] 1, numberToken ['2'] 2, numberToken ['3'] 3,
          operatorToken ['*'] 1, operatorToken ['+'] 0] ∧
    shuntingYard [numberToken ['1'] 1, numberToken ['2'] 2, operatorToken ['+'] 0,
        numberToken ['3'] 3, operatorToken ['*'] 1]
      ≠ [numberToken ['1'] 1, numberToken ['2'] 2, operatorToken ['+'] 0,
          numberToken ['3'] 3, operatorToken ['*'] 1] := by
  refine ⟨?_, ?_, ?_⟩
  · unfold ValidPostfix
    decide
  · decide
  · decide

/-- Witness for C10 (amended) on the tokens `1 2 3 * +`, which are in valid postfix order
and have operators of decreasing precedence. -/
theorem shuntingYard_numbers_then_operators_witness :
    ValidPostfix ([numberToken ['1'] 1, numberToken ['2'] 2, numberToken ['3'] 3]
        ++ [operatorToken ['*'] 1, operatorToken ['+'] 0]) ∧
    shuntingYard ([numberToken ['1'] 1, numberToken ['2'] 2, numberToken ['3'] 3]
        ++ [operatorToken ['*'] 1, operatorToken ['+'] 0])
      = [numberToken ['1'] 1, numberToken ['2'] 2, numberToken ['3'] 3]
        ++ [operatorToken ['*'] 1, operatorToken ['+'] 0] :=
  ⟨by unfold ValidPostfix; decide,
    shuntingYard_numbers_then_operators _ _ (by decide) (by decide) (by decide)⟩

/-! ## General facts about `calculate` -/

section Evaluator

variable {V : Type} (ops : DoubleOps V)

theorem applyOperator_add (x y : V) : applyOperator ops ['+'] x y = ops.add x y := rfl

theorem applyOperator_sub (x y : V) : applyOperator ops ['-'] x y = ops.sub x y := by
  simp [applyOperator]

theorem applyOperator_mul (x y : V) : applyOperator ops ['*'] x y = ops.mul x y := by
  simp [applyOperator]

theorem applyOperator_div (x y : V) : applyOperator ops ['/'] x y = ops.div x y := by
  simp [applyOperator]

theorem applyOperator_pow (x y : V) : applyOperator ops ['^'] x y = ops.pow x y := by
  simp [applyOperator]

/-- The postfix sequence `a b op` evaluates to `left op right` with `a` on the left. -/
theorem calculate_binary (a b op : Token V) (ha : a.type = TokenType.Number)
    (hb : b.type = TokenType.Number) (hop : op.type = TokenType.Operator) :
    calculate ops [a, b, op] = some (applyOperator ops op.characters a.value b.value) := by
  have hopN : op.type ≠ TokenType.Number := by rw [hop]; decide
  simp [calculate, calculateLoop, ha, hb, hop, Token.default]

/-- C13: on the postfix sequence `a b op` of two Number tokens and an Operator token,
`calculate` returns `a op b` with `a` as the left and `b` as the right operand:
`a + b`, `a - b`, `a * b`, `a / b`, and `pow a b` for `^`. -/
theorem calculate_left_right (a b op : Token V) (ha : a.type = TokenType.Number)
    (hb : b.type = TokenType.Number) (hop : op.type = TokenType.Operator) :
    (op.characters = ['+'] → calculate ops [a, b, op] = some (ops.add a.value b.value)) ∧
    (op.characters = ['-'] → calculate ops [a, b, op] = some (ops.sub a.value b.value)) ∧
    (op.characters = ['*'] → calculate ops [a, b, op] = some (ops.mul a.value b.value)) ∧
    (op.characters = ['/'] → calculate ops [a, b, op] = some (ops.div a.value b.value)) ∧
    (op.characters = ['^'] → calculate ops [a, b, op] = some (ops.pow a.value b.value)) := by
  have h := calculate_binary ops a b op ha hb hop
  refine ⟨fun hc => ?_, fun hc => ?_, fun hc => ?_, fun hc => ?_, fun hc => ?_⟩ <;>
    rw [h, hc]
  · rw [applyOperator_add]
  · rw [applyOperator_sub]
  · rw [applyOperator_mul]
  · rw [applyOperator_div]
  · rw [applyOperator_pow]

/-! ### Tokens that are neither numbers nor operators -/

theorem calculateLoop_cons (t : Token V) (rest stack : List (Token V)) :
    calculateLoop ops (t :: rest) stack =
      if t.type = TokenType.Number then calculateLoop ops rest (t :: stack)
      else if t.type = TokenType.Operator then
        match stack with
        | right :: left :: stack' =>
          calculateLoop ops rest
            ({ Token.default ops with
                value := applyOperator ops t.characters left.value right.value } :: stack')
        | _ => none
      else calculateLoop ops rest stack := by
  cases stack with
  | nil => simp [calculateLoop]
  | cons right stack =>
    cases stack with
    | nil => simp [calculateLoop]
    | cons left stack => simp [calculateLoop]

theorem calculateLoop_evaluatedTokens (ts stack : List (Token V)) :
    calculateLoop ops ts stack = calculateLoop ops (evaluatedTokens ts) stack := by
  induction ts generalizing stack with
  | nil => rfl
  | cons t rest ih =>
    by_cases hN : t.type = TokenType.Number
    · have hf : evaluatedTokens (t :: rest) = t :: evaluatedTokens rest := by
        simp [evaluatedTokens, hN]
      rw [hf, calculateLoop_cons, calculateLoop_cons, if_pos hN, if_pos hN]
      exact ih _
    · by_cases hO : t.type = TokenType.Operator
      · have hf : evaluatedTokens (t :: rest) = t :: evaluatedTokens rest := by
          simp [evaluatedTokens, hO]
        rw [hf, calculateLoop_cons, calculateLoop_cons, if_neg hN, if_neg hN, if_pos hO,
          if_pos hO]
        cases stack with
        | nil => rfl
        | cons right stack =>
          cases stack with
          | nil => rfl
          | cons left stack => exact ih _
      · have hf : evaluatedTokens (t :: rest) = evaluatedTokens rest := by
          simp [evaluatedTokens, hN, hO]
        rw [hf, calculateLoop_cons, if_neg hN, if_neg hO]
        exact ih _

/-- C14: `calculate ts` equals `calculate` of `ts` without its tokens that are neither
Number nor Operator tokens (left brackets, right brackets, `Initial`): such tokens change
neither the value stack nor whether the evaluation fails. -/
theorem calculate_evaluatedTokens (ts : List (Token V)) :
    calculate ops ts = calculate ops (evaluatedTokens ts) := by
  unfold calculate
  rw [calculateLoop_evaluatedTokens]

/-! ### When `calculate` returns -/

/-- The loop of `calculate` ends with a stack exactly when `stackDepth` has a value, which
is then the height of that stack. -/
theorem calculateLoop_length (ts stack : List (Token V)) :
    (calculateLoop ops ts stack).map List.length = stackDepth ts stack.length := by
  induction ts generalizing stack with
  | nil => rfl
  | cons t rest ih =>
    rw [calculateLoop_cons, stackDepth]
    by_cases hN : t.type = TokenType.Number
    · rw [if_pos hN, if_pos hN]
      exact ih _
    · rw [if_neg hN, if_neg hN]
      by_cases hO : t.type = TokenType.Operator
      · rw [if_pos hO, if_pos hO]
        cases stack with
        | nil => rfl
        | cons right stack =>
          cases stack with
          | nil => rfl
          | cons left stack =>
            have h2 : 2 ≤ (right :: left :: stack).length := by simp
            rw [if_pos h2]
            exact ih _
      · rw [if_neg hO, if_neg hO]
        exact ih _

/-- The function `calculate` returns a number exactly when no Operator token is reached with
fewer than two values on the value stack and at least one value is on the stack after the
last token. -/
theorem calculate_returns_iff (ts : List (Token V)) :
    (∃ v, calculate ops ts = some v) ↔ ∃ depth, stackDepth ts 0 = some (depth + 1) := by
  have h := calculateLoop_length ops ts []
  unfold calculate
  cases hl : calculateLoop ops ts [] with
  | none =>
    rw [hl] at h
    constructor
    · rintro ⟨v, hv⟩
      cases hv
    · rintro ⟨d, hd⟩
      rw [List.length_nil, hd] at h
      cases h
  | some stack =>
    rw [hl] at h
    cases stack with
    | nil =>
      constructor
      · rintro ⟨v, hv⟩
        cases hv
      · rintro ⟨d, hd⟩
        rw [List.length_nil, hd] at h
        cases h
    | cons top stack =>
      constructor
      · intro _
        exact ⟨stack.length, by rw [List.length_nil] at h; exact h.symm⟩
      · intro _
        exact ⟨top.value, rfl⟩

theorem valueStack_cons (t : Token V) (rest : List (Token V)) (values : List V) :
    valueStack ops (t :: rest) values =
      if t.type = TokenType.Number then valueStack ops rest (t.value :: values)
      else if t.type = TokenType.Operator then
        match values with
        | right :: left :: values' =>
          valueStack ops rest (applyOperator ops t.characters left right :: values')
        | _ => none
      else valueStack ops rest values := by
  cases values with
  | nil => simp [valueStack]
  | cons right values =>
    cases values with
    | nil => simp [valueStack]
    | cons left values => simp [valueStack]

/-- The stack of tokens of `calculate` carries the value stack of the specification. -/
theorem calculateLoop_values (ts stack : List (Token V)) :
    (calculateLoop ops ts stack).map (List.map Token.value)
      = valueStack ops ts (stack.map Token.value) := by
  induction ts generalizing stack with
  | nil => rfl
  | cons t rest ih =>
    rw [calculateLoop_cons, valueStack_cons]
    by_cases hN : t.type = TokenType.Number
    · rw [if_pos hN, if_pos hN]
      exact ih _
    · rw [if_neg hN, if_neg hN]
      by_cases hO : t.type = TokenType.Operator
      · rw [if_pos hO, if_pos hO]
        cases stack with
        | nil => rfl
        | cons right stack =>
          cases stack with
          | nil => rfl
          | cons left stack => exact ih _
      · rw [if_neg hO, if_neg hO]
        exact ih _

/-- The result of `calculate` is the top of the value stack, when there is one. -/
theorem calculate_eq_head (ts : List (Token V)) :
    calculate ops ts = (valueStack ops ts []).bind List.head? := by
  have h := calculateLoop_values ops ts []
  rw [List.map_nil] at h
  rw [← h]
  unfold calculate
  cases calculateLoop ops ts [] with
  | none => rfl
  | some stack =>
    cases stack with
    | nil => rfl
    | cons top stack => rfl

/-- C12 (amended): `calculate` returns the number `v` exactly when no Operator token is
reached with fewer than two values on the value stack and `v` is on top of the value stack
after the last token, whatever lies below it; so it returns a number exactly when the stack
then holds at least one value, and there is no test that exactly one value is left. -/
theorem calculate_top_of_stack (ts : List (Token V)) :
    (∀ v, calculate ops ts = some v ↔ ∃ below, valueStack ops ts [] = some (v :: below)) ∧
    ((∃ v, calculate ops ts = some v) ↔ ∃ depth, stackDepth ts 0 = some (depth + 1)) := by
  refine ⟨fun v => ?_, calculate_returns_iff ops ts⟩
  rw [calculate_eq_head]
  cases valueStack ops ts [] with
  | none =>
    constructor
    · intro h
      cases h
    · rintro ⟨below, h⟩
      cases h
  | some values =>
    cases values with
    | nil =>
      constructor
      · intro h
        cases h
      · rintro ⟨below, h⟩
        cases h
    | cons top values =>
      constructor
      · intro h
        cases h
        exact ⟨values, rfl⟩
      · rintro ⟨below, h⟩
        cases h
        rfl

end Evaluator

/-- Witness for C13 on the tokens `7 2 -` and `7 2 /`: the results are `7 - 2 = 5` and
`7 / 2`, not `2 - 7` and `2 / 7`. -/
theorem calculate_left_right_witness :
    calculate ratOps [numberToken ['7'] 7, numberToken ['2'] 2, operatorToken ['-'] 0]
        = some (5 : ℚ) ∧
      calculate ratOps [numberToken ['7'] 7, numberToken ['2'] 2, operatorToken ['/'] 1]
        = some (7 / 2 : ℚ) :=
  ⟨(calculate_left_right ratOps (numberToken ['7'] 7) (numberToken ['2'] 2)
      (operatorToken ['-'] 0) rfl rfl rfl).2.1 rfl |>.trans (by norm_num [ratOps, numberToken]),
    (calculate_left_right ratOps (numberToken ['7'] 7) (numberToken ['2'] 2)
      (operatorToken ['/'] 1) rfl rfl rfl).2.2.2.1 rfl⟩

/-- C12 (counterexample): on the two Number tokens `5 3` no operator is reached, two values
are left on the stack, and `calculate` returns `3`. -/
theorem calculate_five_three :
    calculate ratOps [numberToken ['5'] 5, numberToken ['3'] 3] = some (3 : ℚ) ∧
      stackDepth [numberToken ['5'] 5, numberToken ['3'] 3] 0 = some 2 :=
  ⟨rfl, rfl⟩

/-- On the tokens `5 3 4 +` the value stack ends as `7` above `5`, and `calculate` returns the
`7` on top. -/
theorem calculate_five_three_four_plus :
    valueStack ratOps [numberToken ['5'] 5, numberToken ['3'] 3, numberToken ['4'] 4,
        operatorToken ['+'] 0] [] = some [3 + 4, 5] ∧
    calculate ratOps [numberToken ['5'] 5, numberToken ['3'] 3, numberToken ['4'] 4,
        operatorToken ['+'] 0] = some (3 + 4 : ℚ) :=
  ⟨rfl, rfl⟩

/-! ## Two operators between three numbers -/

section TwoOperators

variable {V : Type}

/-- The conversion of `a op1 b op2 c`: the first operator is released by the second one
exactly when its precedence is strictly greater. -/
theorem shuntingYard_two_operators (a b c op1 op2 : Token V)
    (ha : a.type = TokenType.Number) (hb : b.type = TokenType.Number)
    (hc : c.type = TokenType.Number) (h1 : op1.type = TokenType.Operator)
    (h2 : op2.type = TokenType.Operator) :
    shuntingYard [a, op1, b, op2, c] =
      if op1.precedence > op2.precedence then [a, b, op1, c, op2] else [a, b, c, op2, op1] := by
  have h1N : op1.type ≠ TokenType.Number := by rw [h1]; decide
  have h2N : op2.type ≠ TokenType.Number := by rw [h2]; decide
  have h1L : op1.type ≠ TokenType.LBracket := by rw [h1]; decide
  by_cases hp : op1.precedence > op2.precedence
  · simp [shuntingYard, shuntingYardLoop, popOperators, ha, hb, hc, h1, h2, hp]
  · simp [shuntingYard, shuntingYardLoop, popOperators, ha, hb, hc, h1, h2, hp]

/-- C16: for Number tokens `a`, `b`, `c` and Operator tokens `op1`, `op2` the conversion of
`a op1 b op2 c` is `a b op1 c op2` when the precedence of `op1` is strictly greater than that
of `op2`, and `a b c op2 op1` otherwise; equal precedence does not pop. -/
theorem shuntingYard_infix_five (a b c op1 op2 : Token V)
    (ha : a.type = TokenType.Number) (hb : b.type = TokenType.Number)
    (hc : c.type = TokenType.Number) (h1 : op1.type = TokenType.Operator)
    (h2 : op2.type = TokenType.Operator) :
    (op1.precedence > op2.precedence →
      shuntingYard [a, op1, b, op2, c] = [a, b, op1, c, op2]) ∧
    (¬ op1.precedence > op2.precedence →
      shuntingYard [a, op1, b, op2, c] = [a, b, c, op2, op1]) := by
  have h := shuntingYard_two_operators a b c op1 op2 ha hb hc h1 h2
  exact ⟨fun hp => by rw [h, if_pos hp], fun hp => by rw [h, if_neg hp]⟩

/-- The postfix sequence `a b c op2 op1` evaluates to `a op1 (b op2 c)`. -/
theorem calculate_nested (ops : DoubleOps V) (a b c op1 op2 : Token V)
    (ha : a.type = TokenType.Number) (hb : b.type = TokenType.Number)
    (hc : c.type = TokenType.Number) (h1 : op1.type = TokenType.Operator)
    (h2 : op2.type = TokenType.Operator) :
    calculate ops [a, b, c, op2, op1] =
      some (applyOperator ops op1.characters a.value
        (applyOperator ops op2.characters b.value c.value)) := by
  have h1N : op1.type ≠ TokenType.Number := by rw [h1]; decide
  have h2N : op2.type ≠ TokenType.Number := by rw [h2]; decide
  simp [calculate, calculateLoop, ha, hb, hc, h1, h2, Token.default]

/-- C11 (amended): a chain of two operators of equal precedence groups from right to left:
on correctly typed tokens `calculate (shuntingYard [a, op1, b, op2, c])` is `a op1 (b op2 c)`
whenever `op1` and `op2` have the same precedence, in particular when both are the same
operator among `+ - * / ^`. -/
theorem calculate_equal_precedence (ops : DoubleOps V) (a b c op1 op2 : Token V)
    (ha : a.type = TokenType.Number) (hb : b.type = TokenType.Number)
    (hc : c.type = TokenType.Number) (h1 : op1.type = TokenType.Operator)
    (h2 : op2.type = TokenType.Operator) (hp : op1.precedence = op2.precedence) :
    calculate ops (shuntingYard [a, op1, b, op2, c]) =
      some (applyOperator ops op1.characters a.value
        (applyOperator ops op2.characters b.value c.value)) := by
  rw [shuntingYard_two_operators a b c op1 op2 ha hb hc h1 h2, if_neg (by omega)]
  exact calculate_nested ops a b c op1 op2 ha hb hc h1 h2

end TwoOperators

/-- Witness for C16 on the tokens `3 + 4 * 2`, which convert to `3 4 2 * +`, and on
`3 * 4 + 2`, which convert to `3 4 * 2 +`. -/
theorem shuntingYard_infix_five_witness :
    shuntingYard [numberToken ['3'] 3, operatorToken ['+'] 0, numberToken ['4'] 4,
        operatorToken ['*'] 1, numberToken ['2'] 2]
      = [numberToken ['3'] 3, numberToken ['4'] 4, numberToken ['2'] 2,
          operatorToken ['*'] 1, operatorToken ['+'] 0] ∧
    shuntingYard [numberToken ['3'] 3, operatorToken ['*'] 1, numberToken ['4'] 4,
        operatorToken ['+'] 0, numberToken ['2'] 2]
      = [numberToken ['3'] 3, numberToken ['4'] 4, operatorToken ['*'] 1,
          numberToken ['2'] 2, operatorToken ['+'] 0] :=
  ⟨(shuntingYard_infix_five (numberToken ['3'] 3) (numberToken ['4'] 4) (numberToken ['2'] 2)
      (operatorToken ['+'] 0) (operatorToken ['*'] 1) rfl rfl rfl rfl rfl).2 (by decide),
    (shuntingYard_infix_five (numberToken ['3'] 3) (numberToken ['4'] 4) (numberToken ['2'] 2)
      (operatorToken ['*'] 1) (operatorToken ['+'] 0) rfl rfl rfl rfl rfl).1 (by decide)⟩

/-- C11 (counterexample): the tokens `2 - 3 - 5` evaluate to `4`, which is `2 - (3 - 5)`, and
not to `(2 - 3) - 5 = -6`. -/
theorem calculate_two_minus_three_minus_five :
    calculate ratOps (shuntingYard [numberToken ['2'] 2, operatorToken ['-'] 0,
        numberToken ['3'] 3, operatorToken ['-'] 0, numberToken ['5'] 5]) = some (4 : ℚ) ∧
      ratOps.sub (ratOps.sub 2 3) 5 = -6 ∧ (4 : ℚ) ≠ -6 := by
  refine ⟨?_, ?_, ?_⟩
  · have h : shuntingYard [numberToken ['2'] 2, operatorToken ['-'] 0,
        numberToken ['3'] 3, operatorToken ['-'] 0, numberToken ['5'] 5]
        = [numberToken ['2'] 2, numberToken ['3'] 3, numberToken ['5'] 5,
            operatorToken ['-'] 0, operatorToken ['-'] 0] := by decide
    rw [h, calculate_nested ratOps _ _ _ _ _ rfl rfl rfl rfl rfl]
    show some (applyOperator ratOps ['-'] 2 (applyOperator ratOps ['-'] 3 5)) = some 4
    rw [applyOperator_sub, applyOperator_sub]
    norm_num [ratOps]
  · norm_num [ratOps]
  · norm_num

/-- Witness for C11 (amended): `2 - 3 - 5` gives `2 - (3 - 5) = 4` and `2 ^ 3 ^ 2` gives
`2 ^ (3 ^ 2) = 512`. -/
theorem calculate_equal_precedence_witness :
    calculate ratOps (shuntingYard [numberToken ['2'] 2, operatorToken ['-'] 0,
        numberToken ['3'] 3, operatorToken ['-'] 0, numberToken ['5'] 5]) = some (4 : ℚ) ∧
    calculate ratOps (shuntingYard [numberToken ['2'] 2, operatorToken ['^'] 2,
        numberToken ['3'] 3, operatorToken ['^'] 2, numberToken ['2'] 2]) = some (512 : ℚ) :=
  ⟨(calculate_equal_precedence ratOps (numberToken ['2'] 2) (numberToken ['3'] 3)
      (numberToken ['5'] 5) (operatorToken ['-'] 0) (operatorToken ['-'] 0)
      rfl rfl rfl rfl rfl rfl).trans
      (by
        show some (applyOperator ratOps ['-'] 2 (applyOperator ratOps ['-'] 3 5)) = some 4
        rw [applyOperator_sub, applyOperator_sub]
        norm_num [ratOps]),
    (calculate_equal_precedence ratOps (numberToken ['2'] 2) (numberToken ['3'] 3)
      (numberToken ['2'] 2) (operatorToken ['^'] 2) (operatorToken ['^'] 2)
      rfl rfl rfl rfl rfl rfl).trans
      (by
        show some (applyOperator ratOps ['^'] 2 (applyOperator ratOps ['^'] 3 2)) = some 512
        rw [applyOperator_pow, applyOperator_pow]
        have h9 : ratOps.pow 3 2 = 9 := by norm_num [ratOps, ratPow]
        rw [h9]
        norm_num [ratOps, ratPow])⟩

/-- Witness for C15 on the tokens of "(1 + 2) * 3", whose brackets are balanced: the output is
`1 2 + 3 *`, without brackets. -/
theorem shuntingYard_balanced_witness :
    Balanced [{ operatorToken ['('] 0 with type := TokenType.LBracket }, numberToken ['1'] 1,
        operatorToken ['+'] 0, numberToken ['2'] 2,
        { operatorToken [')'] 0 with type := TokenType.RBracket }, operatorToken ['*'] 1,
        numberToken ['3'] 3] ∧
    shuntingYard [{ operatorToken ['('] 0 with type := TokenType.LBracket }, numberToken ['1'] 1,
        operatorToken ['+'] 0, numberToken ['2'] 2,
        { operatorToken [')'] 0 with type := TokenType.RBracket }, operatorToken ['*'] 1,
        numberToken ['3'] 3]
      = [numberToken ['1'] 1, numberToken ['2'] 2, operatorToken ['+'] 0, numberToken ['3'] 3,
          operatorToken ['*'] 1] ∧
    ∀ t ∈ shuntingYard [{ operatorToken ['('] 0 with type := TokenType.LBracket },
        numberToken ['1'] 1, operatorToken ['+'] 0, numberToken ['2'] 2,
        { operatorToken [')'] 0 with type := TokenType.RBracket }, operatorToken ['*'] 1,
        numberToken ['3'] 3],
      t.type ≠ TokenType.LBracket ∧ t.type ≠ TokenType.RBracket :=
  ⟨by unfold Balanced; decide, by decide,
    shuntingYard_balanced _ (by unfold Balanced; decide)⟩

/-- On the input "3 + 4 * 2" of length 9, on which no call of `std::stod` throws, the loop
body runs at the counter values `0` to `9`, ten iterations. -/
theorem tokenize_iterations_three_plus_four_times_two :
    "3 + 4 * 2".toList.length ≤ 254 ∧
    (∀ cs ∈ stodTexts "3 + 4 * 2".toList, ratOps.stod cs ≠ none) ∧
    ∃ ts, tokenize ratOps "3 + 4 * 2".toList = Except.ok ts ∧
      tokenizeTrace ratOps "3 + 4 * 2".toList 256 (tokenizeInit ℚ)
        = Except.ok ([0, 1, 2, 3, 4, 5, 6, 7, 8, 9], ts) :=
  ⟨by decide, by decide,
    (tokenize_iterations ratOps "3 + 4 * 2".toList).1 (by decide) (by decide)⟩

/-- C19 (the code departs from it): the input " 1+2" has four characters and its numeric
runs "1" and "2" both parse, yet `tokenize` does not run its loop body five times and return:
the first two executions of the body leave the start of the run at the skipped space, and the
third one, at the character `+`, calls `std::stod` on the text " " instead of the run "1",
and the call throws. -/
theorem tokenize_leading_space :
    " 1+2".toList.length ≤ 254 ∧
    numericRuns " 1+2".toList = [['1'], ['2']] ∧
    (∀ run ∈ numericRuns " 1+2".toList, ratOps.stod run ≠ none) ∧
    tokenizeAfter ratOps " 1+2".toList 2 (tokenizeInit ℚ)
      = Except.ok { i := 2, tokenStart := 0, tokenLength := 1,
                    prevState := TokenType.Number, tokens := [] } ∧
    substr " 1+2".toList 0 1 = [' '] ∧
    ratOps.stod [' '] = none ∧
    tokenizeAfter ratOps " 1+2".toList 3 (tokenizeInit ℚ)
      = Except.error TokenizeError.stodThrows ∧
    tokenize ratOps " 1+2".toList = Except.error TokenizeError.stodThrows :=
  ⟨by decide, by decide, by decide, rfl, by decide, by decide, rfl, rfl⟩

/-! ## The three stages in sequence -/

section Pipeline

variable {V : Type} (ops : DoubleOps V)

/-- A sequence of Number tokens passes through `shuntingYard` unchanged. -/
theorem shuntingYard_of_numbers (ts : List (Token V))
    (h : ∀ t ∈ ts, t.type = TokenType.Number) : shuntingYard ts = ts := by
  have hloop := shuntingYardLoop_leading_numbers ts [] [] [] h
  rw [List.append_nil, List.nil_append] at hloop
  unfold shuntingYard
  simp only
  rw [hloop]
  simp [shuntingYardLoop]

/-- On a sequence of Number tokens the loop of `calculate` pushes every token. -/
theorem calculateLoop_of_numbers (ts stack : List (Token V))
    (h : ∀ t ∈ ts, t.type = TokenType.Number) :
    calculateLoop ops ts stack = some (ts.reverse ++ stack) := by
  induction ts generalizing stack with
  | nil => rfl
  | cons t rest ih =>
    rw [calculateLoop_cons, if_pos (h t (List.mem_cons_self _ _)),
      ih _ (fun u hu => h u (List.mem_cons_of_mem _ hu)), List.reverse_cons, List.append_assoc,
      List.singleton_append]

/-- On a non-empty sequence of Number tokens `calculate` returns the value of the last one. -/
theorem calculate_of_numbers (ts : List (Token V)) (hne : ts ≠ [])
    (h : ∀ t ∈ ts, t.type = TokenType.Number) :
    calculate ops ts = some (ts.getLast hne).value := by
  unfold calculate
  rw [calculateLoop_of_numbers ops ts [] h, List.append_nil]
  have hrev : ts.reverse = ts.getLast hne :: ts.dropLast.reverse := by
    conv_lhs => rw [← List.dropLast_append_getLast hne]
    rw [List.reverse_append, List.reverse_singleton, List.singleton_append]
  rw [hrev]

/-- C18: when `tokenize` returns a non-empty token sequence `ts`, all of whose tokens have kind
`Number`, `shuntingYard ts` is `ts` and `calculate (shuntingYard ts)` is the value field of the
last token of `ts`; that value is `0.0` when the last character of the input that is not
skipped is an operator or a bracket, so that the last token comes from such a run. -/
theorem tokenize_pipeline (line : List Char) (ts : List (Token V))
    (h : tokenize ops line = Except.ok ts) (hne : ts ≠ []) :
    shuntingYard ts = ts ∧
    calculate ops (shuntingYard ts) = some (ts.getLast hne).value ∧
    ∀ k, (line.filterMap classify).getLast? = some k →
      k = TokenType.Operator ∨ k = TokenType.LBracket ∨ k = TokenType.RBracket →
      (ts.getLast hne).value = ops.zero := by
  have hnum := tokenize_type_number ops line ts h
  have hsy := shuntingYard_of_numbers ts hnum
  refine ⟨hsy, ?_, fun k hk hcls => ?_⟩
  · rw [hsy]
    exact calculate_of_numbers ops ts hne hnum
  · have hN : k ≠ TokenType.Number := by rcases hcls with h | h | h <;> rw [h] <;> decide
    have hI : k ≠ TokenType.Initial := by rcases hcls with h | h | h <;> rw [h] <;> decide
    obtain ⟨t, ht, hv⟩ := tokenize_last_value ops line ts h k hk hN hI
    rw [List.getLast?_eq_getLast _ hne] at ht
    rw [Option.some.inj ht]
    exact hv

end Pipeline

/-- Witness for C18 on the input "2 *": the tokens `2` and `*` are both of kind Number, they
pass through `shuntingYard` unchanged, and `calculate` returns the value `0` of the token `*`. -/
theorem tokenize_pipeline_witness :
    tokenize ratOps "2 *".toList
      = Except.ok [numberToken ['2'] 2, { numberToken ['*'] 0 with precedence := 1 }] ∧
    shuntingYard [numberToken ['2'] 2, { numberToken ['*'] 0 with precedence := 1 }]
      = [numberToken ['2'] 2, { numberToken ['*'] 0 with precedence := 1 }] ∧
    calculate ratOps
        (shuntingYard [numberToken ['2'] 2, { numberToken ['*'] 0 with precedence := 1 }])
      = some (0 : ℚ) ∧
    ("2 *".toList.filterMap classify).getLast? = some TokenType.Operator ∧
    ({ numberToken ['*'] 0 with precedence := 1 } : Token ℚ).value = ratOps.zero :=
  have h := tokenize_pipeline ratOps "2 *".toList
    [numberToken ['2'] 2, { numberToken ['*'] 0 with precedence := 1 }] rfl (by decide)
  ⟨rfl, h.1, h.2.1, by decide, h.2.2 TokenType.Operator (by decide) (Or.inl rfl)⟩

/-- C17 (counterexample): the run "1.2.3" is not a floating-point literal, and `tokenize`
does not fail on it: it returns one token of kind `Number` with the text "1.2.3". -/
theorem tokenize_one_two_three :
    (tokenize ratOps "1.2.3".toList).map (List.map (fun t => (t.type, t.characters)))
      = Except.ok [(TokenType.Number, ['1', '.', '2', '.', '3'])] :=
  rfl

/-- Witness for C17 (amended) on the line "1.2.3+4", whose numeric runs are "1.2.3" and "4":
`std::stod` is called on both and throws on neither; and on the line ".", where it is called
on "." and throws. -/
theorem tokenize_stod_witness :
    "1.2.3+4".toList.length ≤ 254 ∧
    (∀ c ∈ "1.2.3+4".toList, Significant c) ∧
    numericRuns "1.2.3+4".toList = [['1', '.', '2', '.', '3'], ['4']] ∧
    stodTexts "1.2.3+4".toList = numericRuns "1.2.3+4".toList ∧
    (∀ cs ∈ stodTexts "1.2.3+4".toList, ratOps.stod cs ≠ none) ∧
    (∃ ts, tokenize ratOps "1.2.3+4".toList = Except.ok ts ∧
      ∀ cs ∈ stodTexts "1.2.3+4".toList, ∃ t ∈ ts, t.type = TokenType.Number ∧
        t.characters = cs ∧ ratOps.stod cs = some t.value) ∧
    stodTexts ".".toList = [['.']] ∧
    tokenize ratOps ".".toList = Except.error TokenizeError.stodThrows :=
  ⟨by decide, by decide, by decide,
    (tokenize_stod ratOps "1.2.3+4".toList (by decide)).2.2 (by decide), by decide,
    (tokenize_stod ratOps "1.2.3+4".toList (by decide)).2.1 (by decide), by decide,
    (tokenize_stod ratOps ".".toList (by decide)).1.mpr ⟨['.'], by decide, by decide⟩⟩

end ShuntingYard
